import Mathlib

/-!
Shallow embedding of `pkg/tcp/wrr_load_balancer.go` (package `tcp`): a
weighted round-robin TCP load balancer.

Modelling conventions:
* Go `int` is modelled as `Int` (weights may be negative; no overflow is
  relevant to the claims under study).
* The opaque `tcp.Handler` forwarding target is modelled as an opaque
  identifier `handler : Nat`.
* The `for {}` selection loop of `next` may not terminate, so it is given
  explicit fuel; `none` means "the loop did not return within the given
  number of iterations".  The two error returns of `next` happen before
  the loop and are therefore independent of the fuel.
* The `sync.Mutex` is not modelled: per the source every call to `next`
  runs in a single critical section, so the sequential semantics below is
  exactly the per-call semantics of the code.
* The `status map[string]*atomic.Bool` field is modelled as
  `Option (List (String × Bool))`, with `none` standing for Go's nil map
  (as left by `NewWRRLoadBalancer`, which never initializes it).  Writing
  to a nil map panics in Go; this outcome is modelled explicitly.
* The `updaters []func(bool)` hooks are opaque; a call to `SetStatus`
  reports the list of boolean values passed to the hooks, in order.
-/

set_option maxRecDepth 100000

namespace Tcp

/-- One pool entry: Go `type server struct { Handler; weight int }`. -/
structure server where
  handler : Nat
  weight : Int
  deriving DecidableEq, Repr

/-- Go `type WRRLoadBalancer struct` (the `sync.Mutex` lock carries no
state that the claims mention and is omitted). -/
structure WRRLoadBalancer where
  servers : List server
  currentWeight : Int
  index : Int
  status : Option (List (String × Bool))
  updaters : List Unit
  deriving DecidableEq, Repr

/-- Go `NewWRRLoadBalancer`: only `index` is set (to `-1`); all other
fields keep their zero values, in particular `status` stays a nil map. -/
def NewWRRLoadBalancer : WRRLoadBalancer :=
  { servers := [], currentWeight := 0, index := -1, status := none, updaters := [] }

/-- Go `AddWeightServer`: appends an entry; a `nil` weight pointer means
weight 1. -/
def AddWeightServer (b : WRRLoadBalancer) (h : Nat) (weight : Option Int) :
    WRRLoadBalancer :=
  { b with servers := b.servers ++ [{ handler := h, weight := weight.getD 1 }] }

/-- Go `AddServer`: appends an entry with weight 1. -/
def AddServer (b : WRRLoadBalancer) (h : Nat) : WRRLoadBalancer :=
  AddWeightServer b h (some 1)

/-- Go `maxWeight`: fold starting from `-1`, keeping the larger value. -/
def maxWeight (l : List server) : Int :=
  l.foldl (fun m s => if s.weight > m then s.weight else m) (-1)

/-- The body of Go `func gcd(a, b int) int`, written with explicit fuel so
that it is structurally recursive.  Go's `%` on `int` is truncated
division remainder, i.e. `Int.tmod`. -/
def gcdLoop : Nat → Int → Int → Int
  | 0, a, _ => a
  | fuel + 1, a, b => if b = 0 then a else gcdLoop fuel b (a.tmod b)

/-- Go `func gcd(a, b int) int`: `for b != 0 { a, b = b, a%b }; return a`.
`|a.tmod b| < |b|` for `b ≠ 0`, so `b.natAbs + 1` rounds of fuel always
suffice; `gcd_zero_right`/`gcd_of_ne_zero` below recover the loop
equations. -/
def gcd (a b : Int) : Int := gcdLoop (b.natAbs + 1) a b

/-- Go `weightGcd`: fold with sentinel `-1`; note that the sentinel test
`divisor == -1` is re-evaluated on every iteration of the range loop. -/
def weightGcd (l : List server) : Int :=
  l.foldl (fun d s => if d = -1 then s.weight else gcd d s.weight) (-1)

/-- The two error returns of `next`. -/
inductive NextError where
  | emptyPool      -- "no servers in the pool"
  | allZeroWeight  -- "all servers have 0 weight"
  deriving DecidableEq, Repr

/-- Result of one call to `next`. -/
inductive NextResult where
  | err (e : NextError)
  | ok (srv : server)
  deriving DecidableEq, Repr

/-- The `for {}` loop of `next`, one constructor per iteration of fuel:
advance the index modulo the pool size; on wrapping to 0 subtract the gcd
from `currentWeight`, resetting to `mx` when the result drops to 0 or
below; return the entry at the new index when its weight is at least
`currentWeight`.  Returns the chosen entry together with the final
`index` and `currentWeight`. -/
def nextLoop (l : List server) (g mx : Int) :
    Nat → Int → Int → Option (server × Int × Int)
  | 0, _, _ => none
  | fuel + 1, idx, cw =>
    let idx' : Int := (idx + 1).tmod (l.length : Int)
    let cw' : Int := if idx' = 0 then (if cw - g ≤ 0 then mx else cw - g) else cw
    let srv := l.getD idx'.toNat { handler := 0, weight := 0 }
    if srv.weight ≥ cw' then some (srv, idx', cw')
    else nextLoop l g mx fuel idx' cw'

/-- Go `next`: empty-pool check, then the all-zero-weight check on the
maximum, then the selection loop (which updates `index` and
`currentWeight` in place).  On an error return the receiver is
unchanged. -/
def next (fuel : Nat) (b : WRRLoadBalancer) :
    Option (NextResult × WRRLoadBalancer) :=
  if b.servers.length = 0 then some (.err .emptyPool, b)
  else if maxWeight b.servers = 0 then some (.err .allZeroWeight, b)
  else
    match nextLoop b.servers (weightGcd b.servers) (maxWeight b.servers)
        fuel b.index b.currentWeight with
    | none => none
    | some (srv, idx, cw) =>
      some (.ok srv, { b with index := idx, currentWeight := cw })

/-- Observer: the error produced by a `next` call, if any. -/
def resultErr : Option (NextResult × WRRLoadBalancer) → Option NextError
  | some (.err e, _) => some e
  | _ => none

/-- Observer: did the `next` call return an entry? -/
def resultOk : Option (NextResult × WRRLoadBalancer) → Bool
  | some (.ok _, _) => true
  | _ => false

/-- Driver: perform `t` successive `next` calls (each with the given per
call fuel), recording the pool index selected by each call; `none` if any
call errors or exhausts its fuel. -/
def runCalls (fuel : Nat) : WRRLoadBalancer → Nat → Option (List Nat × WRRLoadBalancer)
  | b, 0 => some ([], b)
  | b, t + 1 =>
    match next fuel b with
    | some (.ok _, b') =>
      match runCalls fuel b' t with
      | some (tr, b'') => some (b'.index.toNat :: tr, b'')
      | none => none
    | _ => none

/-- A balancer holding the given pool with fresh iteration state, as
produced by `NewWRRLoadBalancer` followed by `AddWeightServer` calls. -/
def initB (l : List server) : WRRLoadBalancer :=
  { NewWRRLoadBalancer with servers := l }

/-- The sequence of pool indices selected by `t` successive `next` calls
on a freshly constructed balancer over pool `l` (per-call fuel is the
pool size). -/
def callTrace (l : List server) (t : Nat) : Option (List Nat) :=
  (runCalls l.length (initB l) t).map Prod.fst

/-- Sum of the weights of a pool (the spec's "weight-sum"). -/
def sumWeights (l : List server) : Int := (l.map server.weight).sum

/-- Externally observable effects of `ServeTCP` on the connection and the
logging collaborator. -/
inductive TCPEvent where
  | logError (e : NextError)
  | closeConn
  | forward (handler : Nat)
  deriving DecidableEq, Repr

/-- Go `ServeTCP`: call `next` under the lock; on error, log the error and
close the connection; otherwise forward the connection to the selected
entry's handler.  Returns the updated balancer and the emitted events. -/
def ServeTCP (fuel : Nat) (b : WRRLoadBalancer) :
    Option (WRRLoadBalancer × List TCPEvent) :=
  match next fuel b with
  | none => none
  | some (.err e, b') => some (b', [TCPEvent.logError e, TCPEvent.closeConn])
  | some (.ok srv, b') => some (b', [TCPEvent.forward srv.handler])

/-- Lookup in the (non-nil) status map. -/
def lookupStatus (m : List (String × Bool)) (k : String) : Option Bool :=
  (m.find? fun p => p.1 == k).map Prod.snd

/-- In-place update of the atomic cell stored for key `k`. -/
def replaceStatus (m : List (String × Bool)) (k : String) (v : Bool) :
    List (String × Bool) :=
  m.map fun p => if p.1 == k then (p.1, v) else p

/-- Outcome of Go `SetStatus`: either a normal return carrying the new
balancer state and the values passed to the updater hooks (in order), or
the runtime panic caused by writing to a nil map. -/
inductive SetStatusOutcome where
  | ok (b : WRRLoadBalancer) (calls : List Bool)
  | nilMapPanic
  deriving DecidableEq, Repr

/-- Go `SetStatus` (the `ctx` argument is only used for logging and is
omitted): look `childName` up in `status`; if absent, create a cell
holding `up` and store it — which panics when `status` is Go's nil map,
as `NewWRRLoadBalancer` leaves it; if present, `CompareAndSwap(!up, up)`:
on failure (stored value already `up`) return without propagating, on
success invoke every updater with `up`. -/
def SetStatus (b : WRRLoadBalancer) (childName : String) (up : Bool) :
    SetStatusOutcome :=
  match b.status with
  | none => SetStatusOutcome.nilMapPanic
  | some m =>
    match lookupStatus m childName with
    | none => .ok { b with status := some (m ++ [(childName, up)]) } []
    | some cur =>
      if cur = up then .ok b []
      else .ok { b with status := some (replaceStatus m childName up) }
        (b.updaters.map fun _ => up)

/-- Status of `childName` as stored in the balancer (if any). -/
def statusLookup (b : WRRLoadBalancer) (childName : String) : Option Bool :=
  b.status.bind fun m => lookupStatus m childName

/-! Analysis devices over the embedding (not part of the Go source):
used to relate a pool to the same pool with all weights multiplied by a
constant, and to describe the selection schedule of a positive-weight
pool in closed form. -/

/-- The same entry with its weight multiplied by `k`. -/
def scaleServer (k : Int) (s : server) : server := ⟨s.handler, k * s.weight⟩

/-- Number of distinct `currentWeight` plateaus per full cycle of a
positive-weight pool: `maxWeight / weightGcd`. -/
def mOf (l : List server) : Nat := (maxWeight l).toNat / (weightGcd l).toNat

/-- The value of `currentWeight` that holds after the `u`-th wrap to
index 0 (counting from a fresh balancer): `max - gcd * (u mod m)`. -/
def cwOf (l : List server) (u : Nat) : Int :=
  maxWeight l - weightGcd l * ((u % mOf l : Nat) : Int)

/-- Whether the `k`-th visit of the loop's index walk (counting from a
fresh balancer; visit `k` inspects entry `k % poolSize` under the
`currentWeight` plateau of wrap `k / poolSize`) satisfies the selection
test `weight ≥ currentWeight`. -/
def visitSel (l : List server) (k : Nat) : Bool :=
  decide ((l.getD (k % l.length) ⟨0, 0⟩).weight ≥ cwOf l (k / l.length))

/-- The `index` field of the balancer when the loop is about to perform
visit `p` (the fresh balancer is about to perform visit 0). -/
def idxAt (l : List server) (p : Nat) : Int :=
  if p = 0 then -1 else ((p - 1) % l.length : Nat)

/-- The `currentWeight` field of the balancer when the loop is about to
perform visit `p`. -/
def cwAt (l : List server) (p : Nat) : Int :=
  if p = 0 then 0 else cwOf l ((p - 1) / l.length)

/-- The balancer state (over pool `l`, all other fields fresh) when the
loop is about to perform visit `p`; `stateAt l 0` is the fresh
balancer. -/
def stateAt (l : List server) (p : Nat) : WRRLoadBalancer :=
  ⟨l, cwAt l p, idxAt l p, none, []⟩

/-- Number of selected visits among `p, p+1, …, p+L-1`. -/
def selCount (l : List server) (p L : Nat) : Nat :=
  (List.range L).countP fun d => visitSel l (p + d)

/-- Number of selected visits of entry `i` among `p, …, p+L-1`. -/
def selCountAt (l : List server) (i p L : Nat) : Nat :=
  (List.range L).countP fun d => visitSel l (p + d) && ((p + d) % l.length == i)

/-! ## Helper lemmas on the status map -/

/-- Unfolding `lookupStatus` over a cons cell. -/
theorem lookupStatus_cons (p : String × Bool) (m : List (String × Bool)) (k : String) :
    lookupStatus (p :: m) k = if (p.1 == k) = true then some p.2 else lookupStatus m k := by
  cases hpk : p.1 == k with
  | true => simp [lookupStatus, List.find?, hpk]
  | false => simp [lookupStatus, List.find?, hpk]

/-- Unfolding `replaceStatus` over a cons cell. -/
theorem replaceStatus_cons (p : String × Bool) (m : List (String × Bool)) (k : String)
    (v : Bool) :
    replaceStatus (p :: m) k v
      = (if (p.1 == k) = true then (p.1, v) else p) :: replaceStatus m k v := rfl

/-- Appending a fresh entry makes it visible to `lookupStatus`. -/
theorem lookupStatus_append_self (m : List (String × Bool)) (k : String) (v : Bool)
    (h : lookupStatus m k = none) : lookupStatus (m ++ [(k, v)]) k = some v := by
  induction m with
  | nil => simp [lookupStatus]
  | cons p m ih =>
    by_cases hpk : (p.1 == k) = true
    · rw [lookupStatus_cons, if_pos hpk] at h; cases h
    · rw [lookupStatus_cons, if_neg hpk] at h
      rw [List.cons_append, lookupStatus_cons, if_neg hpk]
      exact ih h

/-- Replacing the cell stored for an existing key updates `lookupStatus`. -/
theorem lookupStatus_replace (m : List (String × Bool)) (k : String) (v cur : Bool)
    (h : lookupStatus m k = some cur) : lookupStatus (replaceStatus m k v) k = some v := by
  induction m with
  | nil => simp [lookupStatus] at h
  | cons p m ih =>
    by_cases hpk : (p.1 == k) = true
    · rw [replaceStatus_cons, if_pos hpk, lookupStatus_cons, if_pos hpk]
    · rw [lookupStatus_cons, if_neg hpk] at h
      rw [replaceStatus_cons, if_neg hpk, lookupStatus_cons, if_neg hpk]
      exact ih h

/-- After a normal `SetStatus b name up` return, the stored flag for
`name` reads `up`. -/
theorem statusLookup_after_set (b b' : WRRLoadBalancer) (name : String) (up : Bool)
    (evs : List Bool) (h : SetStatus b name up = .ok b' evs) :
    statusLookup b' name = some up := by
  unfold SetStatus at h
  split at h
  · exact absurd h (by simp)
  · next m hst =>
    split at h
    · next hl =>
      obtain ⟨hb, -⟩ := SetStatusOutcome.ok.inj h
      rw [← hb]
      simpa [statusLookup] using lookupStatus_append_self m name up hl
    · next cur hl =>
      split at h
      · next hc =>
        obtain ⟨hb, -⟩ := SetStatusOutcome.ok.inj h
        rw [← hb, statusLookup, hst]
        simpa [hc] using hl
      · next hc =>
        obtain ⟨hb, -⟩ := SetStatusOutcome.ok.inj h
        rw [← hb]
        simpa [statusLookup] using lookupStatus_replace m name up cur hl

/-- If the stored flag already equals `up`, `SetStatus` is a no-op. -/
theorem setStatus_noop (b : WRRLoadBalancer) (name : String) (up : Bool)
    (h : statusLookup b name = some up) : SetStatus b name up = .ok b [] := by
  obtain ⟨m, hst, hl⟩ : ∃ m, b.status = some m ∧ lookupStatus m name = some up := by
    unfold statusLookup at h
    cases hb : b.status with
    | none => rw [hb] at h; simp at h
    | some m => rw [hb] at h; exact ⟨m, rfl, by simpa using h⟩
  simp [SetStatus, hst, hl]

/-! ## Arithmetic helpers: truncated remainder and the source `gcd` -/

theorem natAbs_tmod (a b : Int) : (a.tmod b).natAbs = a.natAbs % b.natAbs := by
  cases a <;> cases b <;> simp only [Int.tmod, Int.natAbs_neg, Int.natAbs_ofNat] <;> rfl

/-- `gcdLoop` ignores its fuel as long as the fuel exceeds `|b|`. -/
theorem gcdLoop_congr :
    ∀ (f f' : Nat) (a b : Int), b.natAbs < f → b.natAbs < f' →
      gcdLoop f a b = gcdLoop f' a b := by
  intro f
  induction f with
  | zero => intro f' a b hf _; omega
  | succ f ih =>
    intro f' a b hf hf'
    cases f' with
    | zero => omega
    | succ f' =>
      by_cases hb : b = 0
      · simp [gcdLoop, hb]
      · have hr : (a.tmod b).natAbs < b.natAbs := by
          rw [natAbs_tmod]
          exact Nat.mod_lt _ (Int.natAbs_pos.mpr hb)
        simp only [gcdLoop, if_neg hb]
        exact ih f' b (a.tmod b) (by omega) (by omega)

theorem gcd_zero (a : Int) : gcd a 0 = a := rfl

/-- `gcd` satisfies the loop equation of the Go source: one iteration of
`for b != 0 { a, b = b, a%b }`. -/
theorem gcd_rec (a b : Int) (hb : b ≠ 0) : gcd a b = gcd b (a.tmod b) := by
  unfold gcd
  have hr : (a.tmod b).natAbs < b.natAbs := by
    rw [natAbs_tmod]
    exact Nat.mod_lt _ (Int.natAbs_pos.mpr hb)
  have h1 : gcdLoop (b.natAbs + 1) a b = gcdLoop b.natAbs b (a.tmod b) := by
    simp only [gcdLoop, if_neg hb]
  rw [h1]
  exact gcdLoop_congr _ _ _ _ hr (by omega)

theorem gcd_eq_natGcd_aux :
    ∀ (n : Nat) (a b : Int), b.natAbs ≤ n → 0 ≤ a → 0 ≤ b →
      gcd a b = (Int.gcd a b : Int) := by
  intro n
  induction n with
  | zero =>
    intro a b hn ha _
    have hb0 : b = 0 := Int.natAbs_eq_zero.mp (Nat.le_zero.mp hn)
    subst hb0
    rw [gcd_zero a, Int.gcd_zero_right, Int.natAbs_of_nonneg ha]
  | succ n ih =>
    intro a b hn ha hb
    by_cases hb0 : b = 0
    · subst hb0
      rw [gcd_zero a, Int.gcd_zero_right, Int.natAbs_of_nonneg ha]
    · have hr : (a.tmod b).natAbs < b.natAbs := by
        rw [natAbs_tmod]
        exact Nat.mod_lt _ (Int.natAbs_pos.mpr hb0)
      rw [gcd_rec a b hb0, ih b (a.tmod b) (by omega) hb (Int.tmod_nonneg b ha)]
      congr 1
      show Nat.gcd b.natAbs (a.tmod b).natAbs = Nat.gcd a.natAbs b.natAbs
      rw [natAbs_tmod]
      calc Nat.gcd b.natAbs (a.natAbs % b.natAbs)
          = Nat.gcd (a.natAbs % b.natAbs) b.natAbs := Nat.gcd_comm _ _
        _ = Nat.gcd b.natAbs a.natAbs := (Nat.gcd_rec _ _).symm
        _ = Nat.gcd a.natAbs b.natAbs := Nat.gcd_comm _ _

/-- On non-negative arguments the source `gcd` agrees with the
mathematical gcd. -/
theorem gcd_eq_natGcd (a b : Int) (ha : 0 ≤ a) (hb : 0 ≤ b) :
    gcd a b = (Int.gcd a b : Int) :=
  gcd_eq_natGcd_aux b.natAbs a b le_rfl ha hb

theorem gcd_nonneg_of_nonneg (a b : Int) (ha : 0 ≤ a) (hb : 0 ≤ b) : 0 ≤ gcd a b := by
  rw [gcd_eq_natGcd a b ha hb]; positivity

theorem gcd_dvd_left_of_nonneg (a b : Int) (ha : 0 ≤ a) (hb : 0 ≤ b) : gcd a b ∣ a := by
  rw [gcd_eq_natGcd a b ha hb]; exact Int.gcd_dvd_left

theorem gcd_dvd_right_of_nonneg (a b : Int) (ha : 0 ≤ a) (hb : 0 ≤ b) : gcd a b ∣ b := by
  rw [gcd_eq_natGcd a b ha hb]; exact Int.gcd_dvd_right

theorem gcd_eq_zero_of_nonneg (a b : Int) (ha : 0 ≤ a) (hb : 0 ≤ b)
    (h : gcd a b = 0) : a = 0 ∧ b = 0 := by
  rw [gcd_eq_natGcd a b ha hb] at h
  exact Int.gcd_eq_zero_iff.mp (by exact_mod_cast h)

/-! ## Properties of `maxWeight` -/

theorem maxFold_init_le (l : List server) :
    ∀ init : Int, init ≤ l.foldl (fun m s => if s.weight > m then s.weight else m) init := by
  induction l with
  | nil => intro init; exact le_rfl
  | cons t l ih =>
    intro init
    refine le_trans ?_ (ih (if t.weight > init then t.weight else init))
    by_cases h : t.weight > init
    · simp only [if_pos h]; omega
    · simp only [if_neg h]; exact le_rfl

theorem maxFold_mem_le (l : List server) :
    ∀ (init : Int) (s : server), s ∈ l →
      s.weight ≤ l.foldl (fun m s => if s.weight > m then s.weight else m) init := by
  induction l with
  | nil => intro _ s hs; cases hs
  | cons t l ih =>
    intro init s hs
    rcases List.mem_cons.mp hs with rfl | hs
    · refine le_trans ?_ (maxFold_init_le l (if s.weight > init then s.weight else init))
      by_cases h : s.weight > init
      · simp only [if_pos h]; exact le_rfl
      · simp only [if_neg h]; omega
    · exact ih _ s hs

theorem maxFold_eq_init_or_mem (l : List server) :
    ∀ init : Int,
      l.foldl (fun m s => if s.weight > m then s.weight else m) init = init ∨
      ∃ s ∈ l, l.foldl (fun m s => if s.weight > m then s.weight else m) init = s.weight := by
  induction l with
  | nil => intro init; exact Or.inl rfl
  | cons t l ih =>
    intro init
    rw [List.foldl_cons]
    rcases ih (if t.weight > init then t.weight else init) with h | ⟨s, hs, h⟩
    · by_cases ht : t.weight > init
      · right
        exact ⟨t, List.mem_cons_self t l, by rw [h, if_pos ht]⟩
      · left
        rw [h, if_neg ht]
    · right
      exact ⟨s, List.mem_cons_of_mem t hs, h⟩

theorem maxWeight_ge (l : List server) (s : server) (hs : s ∈ l) :
    s.weight ≤ maxWeight l :=
  maxFold_mem_le l (-1) s hs

theorem maxWeight_pos (l : List server) (s : server) (hs : s ∈ l)
    (hw : 1 ≤ s.weight) : 0 < maxWeight l :=
  lt_of_lt_of_le (by omega) (maxWeight_ge l s hs)

theorem maxWeight_attained (l : List server) (h : 0 < maxWeight l) :
    ∃ j, ∃ _ : j < l.length, (l.getD j ⟨0, 0⟩).weight = maxWeight l := by
  rcases maxFold_eq_init_or_mem l (-1) with h1 | ⟨s, hs, h1⟩
  · rw [maxWeight] at h; rw [h1] at h; omega
  · obtain ⟨j, hj, hget⟩ := List.mem_iff_getElem.mp hs
    refine ⟨j, hj, ?_⟩
    rw [List.getD_eq_getElem l ⟨0, 0⟩ hj, hget]
    exact h1.symm

/-! ## Properties of `weightGcd` on non-negative pools -/

theorem weightGcd_cons (s : server) (l : List server) :
    weightGcd (s :: l)
      = l.foldl (fun d t => if d = -1 then t.weight else gcd d t.weight) s.weight := by
  simp [weightGcd]

theorem weightGcd_fold_props (l : List server) (hl : ∀ s ∈ l, 0 ≤ s.weight) :
    ∀ d : Int, 0 ≤ d →
      0 ≤ l.foldl (fun d t => if d = -1 then t.weight else gcd d t.weight) d ∧
      l.foldl (fun d t => if d = -1 then t.weight else gcd d t.weight) d ∣ d ∧
      (∀ s ∈ l, l.foldl (fun d t => if d = -1 then t.weight else gcd d t.weight) d ∣ s.weight) ∧
      (l.foldl (fun d t => if d = -1 then t.weight else gcd d t.weight) d = 0 →
        d = 0 ∧ ∀ s ∈ l, s.weight = 0) := by
  induction l with
  | nil =>
    intro d hd
    refine ⟨hd, dvd_refl d, ?_, ?_⟩
    · intro s hs; cases hs
    · intro h
      refine ⟨h, ?_⟩
      intro s hs; cases hs
  | cons t l ih =>
    intro d hd
    have ht : 0 ≤ t.weight := hl t (List.mem_cons_self t l)
    have hl' : ∀ s ∈ l, 0 ≤ s.weight := fun s hs => hl s (List.mem_cons_of_mem t hs)
    have hdne : ¬d = -1 := by omega
    have hstep : (t :: l).foldl (fun d t => if d = -1 then t.weight else gcd d t.weight) d
        = l.foldl (fun d t => if d = -1 then t.weight else gcd d t.weight) (gcd d t.weight) := by
      rw [List.foldl_cons, if_neg hdne]
    obtain ⟨h0, hdvd, hmem, hzero⟩ := ih hl' (gcd d t.weight) (gcd_nonneg_of_nonneg d t.weight hd ht)
    rw [hstep]
    refine ⟨h0, dvd_trans hdvd (gcd_dvd_left_of_nonneg d t.weight hd ht), ?_, ?_⟩
    · intro s hs
      rcases List.mem_cons.mp hs with rfl | hs
      · exact dvd_trans hdvd (gcd_dvd_right_of_nonneg d s.weight hd ht)
      · exact hmem s hs
    · intro h
      obtain ⟨hg, hrest⟩ := hzero h
      obtain ⟨hd0, ht0⟩ := gcd_eq_zero_of_nonneg d t.weight hd ht hg
      refine ⟨hd0, ?_⟩
      intro s hs
      rcases List.mem_cons.mp hs with rfl | hs
      · exact ht0
      · exact hrest s hs

theorem weightGcd_dvd (l : List server) (hl : ∀ s ∈ l, 0 ≤ s.weight) :
    ∀ s ∈ l, weightGcd l ∣ s.weight := by
  cases l with
  | nil => intro s hs; cases hs
  | cons t l =>
    have ht : 0 ≤ t.weight := hl t (List.mem_cons_self t l)
    have hl' : ∀ s ∈ l, 0 ≤ s.weight := fun s hs => hl s (List.mem_cons_of_mem t hs)
    obtain ⟨-, hdvd, hmem, -⟩ := weightGcd_fold_props l hl' t.weight ht
    intro s hs
    rw [weightGcd_cons]
    rcases List.mem_cons.mp hs with rfl | hs
    · exact hdvd
    · exact hmem s hs

theorem weightGcd_pos (l : List server) (hl : ∀ s ∈ l, 0 ≤ s.weight)
    (s : server) (hs : s ∈ l) (hw : 1 ≤ s.weight) : 1 ≤ weightGcd l := by
  cases l with
  | nil => cases hs
  | cons t l =>
    have ht : 0 ≤ t.weight := hl t (List.mem_cons_self t l)
    have hl' : ∀ s ∈ l, 0 ≤ s.weight := fun s hs => hl s (List.mem_cons_of_mem t hs)
    obtain ⟨h0, -, -, hzero⟩ := weightGcd_fold_props l hl' t.weight ht
    have hne : l.foldl (fun d t => if d = -1 then t.weight else gcd d t.weight) t.weight ≠ 0 := by
      intro heq
      obtain ⟨ht0, hall⟩ := hzero heq
      rcases List.mem_cons.mp hs with rfl | hs'
      · omega
      · have := hall s hs'; omega
    rw [weightGcd_cons]
    omega

/-! ## One-step normal form and termination of the selection loop -/

theorem tmod_toNat (a : Int) (n : Nat) (h : 0 ≤ a) :
    a.tmod (n : Int) = ((a.toNat % n : Nat) : Int) := by
  have h2 := Int.natCast_mod a.toNat n
  rw [Int.toNat_of_nonneg h] at h2
  rw [Int.tmod_eq_emod h (by positivity), ← h2]

/-- One iteration of the selection loop, for a state whose index is at
least `-1` (as in every reachable state): the new index is the natural
number `(idx+1).toNat % poolSize`. -/
theorem nextLoop_step (l : List server) (g mx : Int) (fuel : Nat) (idx cw : Int)
    (hidx : -1 ≤ idx) :
    nextLoop l g mx (fuel + 1) idx cw =
      (if (l.getD ((idx + 1).toNat % l.length) ⟨0, 0⟩).weight ≥
          (if (idx + 1).toNat % l.length = 0 then (if cw - g ≤ 0 then mx else cw - g) else cw)
       then some (l.getD ((idx + 1).toNat % l.length) ⟨0, 0⟩,
          (((idx + 1).toNat % l.length : Nat) : Int),
          (if (idx + 1).toNat % l.length = 0 then (if cw - g ≤ 0 then mx else cw - g) else cw))
       else nextLoop l g mx fuel (((idx + 1).toNat % l.length : Nat) : Int)
          (if (idx + 1).toNat % l.length = 0 then (if cw - g ≤ 0 then mx else cw - g) else cw)) := by
  have h1 : (idx + 1).tmod (l.length : Int)
      = (((idx + 1).toNat % l.length : Nat) : Int) := tmod_toNat _ _ (by omega)
  simp only [nextLoop, h1, Int.toNat_natCast, Nat.cast_eq_zero]

/-- Core termination argument: if within the next `fuel` visits the walk
of indices passes the position `jmax` of a maximum-weight entry, the
loop returns.  `currentWeight` stays at most `maxWeight` along the way
because the gcd subtracted on each wrap is positive. -/
theorem nextLoop_reaches (l : List server) (jmax : Nat)
    (hg : 1 ≤ weightGcd l) (hjm : jmax < l.length)
    (hjw : (l.getD jmax ⟨0, 0⟩).weight = maxWeight l) :
    ∀ (fuel : Nat) (idx cw : Int), -1 ≤ idx → cw ≤ maxWeight l →
      (∃ st, st < fuel ∧ ((idx + 1).toNat % l.length + st) % l.length = jmax) →
      (nextLoop l (weightGcd l) (maxWeight l) fuel idx cw).isSome = true := by
  have hn : 0 < l.length := by omega
  intro fuel
  induction fuel with
  | zero =>
    intro idx cw _ _ h
    obtain ⟨st, hst, -⟩ := h
    omega
  | succ fuel ih =>
    intro idx cw hidx hcw h
    obtain ⟨st, hst, hmod⟩ := h
    rw [nextLoop_step l _ _ fuel idx cw hidx]
    have hj₁lt : (idx + 1).toNat % l.length < l.length := Nat.mod_lt _ hn
    have hcw' :
        (if (idx + 1).toNat % l.length = 0 then
          (if cw - weightGcd l ≤ 0 then maxWeight l else cw - weightGcd l) else cw)
        ≤ maxWeight l := by
      split_ifs <;> omega
    by_cases hsel : (l.getD ((idx + 1).toNat % l.length) ⟨0, 0⟩).weight ≥
        (if (idx + 1).toNat % l.length = 0 then
          (if cw - weightGcd l ≤ 0 then maxWeight l else cw - weightGcd l) else cw)
    · rw [if_pos hsel]; rfl
    · rw [if_neg hsel]
      have hst0 : st ≠ 0 := by
        intro h0
        subst h0
        rw [Nat.add_zero, Nat.mod_eq_of_lt hj₁lt] at hmod
        rw [hmod, hjw] at hsel
        omega
      obtain ⟨st', rfl⟩ : ∃ st', st = st' + 1 := ⟨st - 1, by omega⟩
      refine ih (((idx + 1).toNat % l.length : Nat) : Int) _ (by omega) hcw' ?_
      refine ⟨st', by omega, ?_⟩
      have ht : ((((idx + 1).toNat % l.length : Nat) : Int) + 1).toNat
          = (idx + 1).toNat % l.length + 1 := by omega
      rw [ht, Nat.mod_add_mod,
        show (idx + 1).toNat % l.length + 1 + st' = (idx + 1).toNat % l.length + (st' + 1) from
          by omega]
      exact hmod

/-- Termination within `poolSize` iterations, for a non-empty pool of
non-negative weights with strictly positive maximum and a state with
`index ≥ -1` and `currentWeight ≤ maxWeight`. -/
theorem nextLoop_terminates (l : List server)
    (hnn : ∀ s ∈ l, 0 ≤ s.weight) (hM : 0 < maxWeight l) (hne : l ≠ [])
    (idx cw : Int) (hidx : -1 ≤ idx) (hcw : cw ≤ maxWeight l) :
    (nextLoop l (weightGcd l) (maxWeight l) l.length idx cw).isSome = true := by
  have hn : 0 < l.length := List.length_pos.mpr hne
  obtain ⟨jmax, hjm, hjw⟩ := maxWeight_attained l hM
  have hmem : l.getD jmax ⟨0, 0⟩ ∈ l := by
    rw [List.getD_eq_getElem _ _ hjm]
    exact List.getElem_mem hjm
  have hg : 1 ≤ weightGcd l := weightGcd_pos l hnn _ hmem (by omega)
  refine nextLoop_reaches l jmax hg hjm hjw l.length idx cw hidx hcw ?_
  refine ⟨(jmax + l.length - (idx + 1).toNat % l.length) % l.length, Nat.mod_lt _ hn, ?_⟩
  have hj₁lt : (idx + 1).toNat % l.length < l.length := Nat.mod_lt _ hn
  have h1 : ((idx + 1).toNat % l.length +
      (jmax + l.length - (idx + 1).toNat % l.length) % l.length) % l.length
      = ((idx + 1).toNat % l.length + (jmax + l.length - (idx + 1).toNat % l.length))
          % l.length := by
    conv_lhs => rw [Nat.add_comm]
    rw [Nat.mod_add_mod, Nat.add_comm]
  rw [h1,
    show (idx + 1).toNat % l.length + (jmax + l.length - (idx + 1).toNat % l.length)
      = jmax + l.length from by omega,
    Nat.add_mod_right, Nat.mod_eq_of_lt hjm]

/-- Characterisation of the error result of `next`: exactly the two
pre-loop checks, independent of the fuel. -/
theorem next_err_char (fuel : Nat) (b : WRRLoadBalancer) :
    resultErr (next fuel b) =
      (if b.servers.length = 0 then some NextError.emptyPool
       else if maxWeight b.servers = 0 then some NextError.allZeroWeight
       else none) := by
  unfold next
  by_cases h0 : b.servers.length = 0
  · simp [h0, resultErr]
  · by_cases h1 : maxWeight b.servers = 0
    · simp [h0, h1, resultErr]
    · simp only [h0, h1, if_false]
      cases hl : nextLoop b.servers (weightGcd b.servers) (maxWeight b.servers)
          fuel b.index b.currentWeight with
      | none => simp [resultErr]
      | some v =>
        obtain ⟨srv, idx, cw⟩ := v
        simp [resultErr]

/-- Inversion of a successful `next` call. -/
theorem next_ok_inv (fuel : Nat) (b : WRRLoadBalancer) (srv : server)
    (b' : WRRLoadBalancer) (h : next fuel b = some (.ok srv, b')) :
    b.servers.length ≠ 0 ∧ maxWeight b.servers ≠ 0 ∧
    b'.servers = b.servers ∧
    nextLoop b.servers (weightGcd b.servers) (maxWeight b.servers) fuel b.index
      b.currentWeight = some (srv, b'.index, b'.currentWeight) := by
  unfold next at h
  split at h
  · exact absurd h (by simp)
  · split at h
    · exact absurd h (by simp)
    · next h0 h1 =>
      split at h
      · exact absurd h (by simp)
      · next srv' idx cw hl =>
        obtain ⟨hr, hb⟩ := Prod.mk.inj (Option.some.inj h)
        obtain rfl : srv' = srv := NextResult.ok.inj hr
        subst hb
        exact ⟨h0, h1, rfl, hl⟩

/-- The loop never hands back an entry of weight below 1, provided the
maximum is at least 1 and the incoming state is reachable-shaped
(`currentWeight ≥ 1`, or `index = -1` so that the first iteration
wraps); the final `currentWeight` is again at least 1. -/
theorem nextLoop_pos_weight (l : List server) (g mx : Int) (hmx : 1 ≤ mx) :
    ∀ (fuel : Nat) (idx cw : Int) (srv : server) (idx' cw' : Int),
      (1 ≤ cw ∨ idx = -1) →
      nextLoop l g mx fuel idx cw = some (srv, idx', cw') →
      1 ≤ cw' ∧ cw' ≤ srv.weight := by
  intro fuel
  induction fuel with
  | zero => intro idx cw srv idx' cw' _ h; cases h
  | succ fuel ih =>
    intro idx cw srv idx' cw' hgood h
    simp only [nextLoop] at h
    set j : Int := (idx + 1).tmod (l.length : Int) with hj
    set c : Int := if j = 0 then (if cw - g ≤ 0 then mx else cw - g) else cw with hc
    have hcw₁ : 1 ≤ c := by
      rw [hc]
      by_cases hw : j = 0
      · rw [if_pos hw]; split_ifs <;> omega
      · rw [if_neg hw]
        rcases hgood with h1 | h1
        · exact h1
        · exfalso
          apply hw
          rw [hj, h1]
          simp
    by_cases hsel : (l.getD j.toNat ⟨0, 0⟩).weight ≥ c
    · rw [if_pos hsel] at h
      obtain ⟨h1, h2⟩ := Prod.mk.inj (Option.some.inj h)
      obtain ⟨h3, h4⟩ := Prod.mk.inj h2
      rw [← h4, ← h1]
      exact ⟨hcw₁, hsel⟩
    · rw [if_neg hsel] at h
      exact ih j c srv idx' cw' (Or.inl hcw₁) h

/-! ## Weight scaling: the selection behaviour is invariant under
multiplying every (non-negative) weight by a positive constant -/

theorem gcd_scale (k a b : Int) (hk : 1 ≤ k) (ha : 0 ≤ a) (hb : 0 ≤ b) :
    gcd (k * a) (k * b) = k * gcd a b := by
  have hk0 : (0 : Int) ≤ k := by omega
  rw [gcd_eq_natGcd _ _ (mul_nonneg hk0 ha) (mul_nonneg hk0 hb),
    gcd_eq_natGcd a b ha hb, Int.gcd_mul_left]
  rw [Nat.cast_mul, Int.natAbs_of_nonneg hk0]

theorem maxFold_scale (k : Int) (hk : 1 ≤ k) :
    ∀ (l : List server), (∀ s ∈ l, 0 ≤ s.weight) → ∀ init : Int, 0 ≤ init →
      (l.map (scaleServer k)).foldl
          (fun m s => if s.weight > m then s.weight else m) (k * init)
        = k * l.foldl (fun m s => if s.weight > m then s.weight else m) init := by
  intro l
  induction l with
  | nil => intro _ init _; rfl
  | cons t l ih =>
    intro hl init hinit
    have ht : 0 ≤ t.weight := hl t (List.mem_cons_self t l)
    rw [List.map_cons, List.foldl_cons, List.foldl_cons]
    have hstep :
        (if (scaleServer k t).weight > k * init then (scaleServer k t).weight else k * init)
          = k * (if t.weight > init then t.weight else init) := by
      simp only [scaleServer]
      by_cases h : t.weight > init
      · rw [if_pos h, if_pos (by nlinarith)]
      · rw [if_neg h, if_neg (by push_neg at h ⊢; nlinarith)]
    rw [hstep]
    exact ih (fun s hs => hl s (List.mem_cons_of_mem t hs)) _ (by split_ifs <;> omega)

theorem maxWeight_cons_nonneg (t : server) (l : List server) (ht : 0 ≤ t.weight) :
    maxWeight (t :: l)
      = l.foldl (fun m s => if s.weight > m then s.weight else m) t.weight := by
  rw [maxWeight, List.foldl_cons]
  congr 1
  rw [if_pos (by omega : t.weight > -1)]

theorem maxWeight_scale (k : Int) (hk : 1 ≤ k) (l : List server)
    (hl : ∀ s ∈ l, 0 ≤ s.weight) (hne : l ≠ []) :
    maxWeight (l.map (scaleServer k)) = k * maxWeight l := by
  cases l with
  | nil => exact absurd rfl hne
  | cons t l =>
    have ht : 0 ≤ t.weight := hl t (List.mem_cons_self t l)
    rw [List.map_cons,
      maxWeight_cons_nonneg _ _ (by simp only [scaleServer]; exact mul_nonneg (by omega) ht),
      maxWeight_cons_nonneg t l ht]
    exact maxFold_scale k hk l (fun s hs => hl s (List.mem_cons_of_mem t hs)) t.weight ht

theorem weightGcdFold_scale (k : Int) (hk : 1 ≤ k) :
    ∀ (l : List server), (∀ s ∈ l, 0 ≤ s.weight) → ∀ d : Int, 0 ≤ d →
      (l.map (scaleServer k)).foldl
          (fun d t => if d = -1 then t.weight else gcd d t.weight) (k * d)
        = k * l.foldl (fun d t => if d = -1 then t.weight else gcd d t.weight) d := by
  intro l
  induction l with
  | nil => intro _ d _; rfl
  | cons t l ih =>
    intro hl d hd
    have ht : 0 ≤ t.weight := hl t (List.mem_cons_self t l)
    have h1 : ¬ (k * d) = -1 := by
      have : 0 ≤ k * d := mul_nonneg (by omega) hd
      omega
    have h2 : ¬ d = -1 := by omega
    rw [List.map_cons, List.foldl_cons, List.foldl_cons, if_neg h1, if_neg h2]
    show (l.map (scaleServer k)).foldl _ (gcd (k * d) (k * t.weight)) = _
    rw [gcd_scale k d t.weight hk hd ht]
    exact ih (fun s hs => hl s (List.mem_cons_of_mem t hs)) _
      (gcd_nonneg_of_nonneg d t.weight hd ht)

theorem weightGcd_scale (k : Int) (hk : 1 ≤ k) (l : List server)
    (hl : ∀ s ∈ l, 0 ≤ s.weight) (hne : l ≠ []) :
    weightGcd (l.map (scaleServer k)) = k * weightGcd l := by
  cases l with
  | nil => exact absurd rfl hne
  | cons t l =>
    have ht : 0 ≤ t.weight := hl t (List.mem_cons_self t l)
    rw [List.map_cons, weightGcd_cons, weightGcd_cons]
    show (l.map (scaleServer k)).foldl _ (k * t.weight) = _
    exact weightGcdFold_scale k hk l (fun s hs => hl s (List.mem_cons_of_mem t hs)) t.weight ht

theorem getD_scale (k : Int) (l : List server) (j : Nat) :
    (l.map (scaleServer k)).getD j ⟨0, 0⟩ = scaleServer k (l.getD j ⟨0, 0⟩) := by
  rw [List.getD_eq_getElem?_getD, List.getD_eq_getElem?_getD, List.getElem?_map]
  cases h : l[j]? with
  | none => simp [scaleServer]
  | some s => simp

theorem nextLoop_scale (l : List server) (k g mx : Int) (hk : 1 ≤ k) :
    ∀ (fuel : Nat) (idx cw : Int),
      nextLoop (l.map (scaleServer k)) (k * g) (k * mx) fuel idx (k * cw)
        = (nextLoop l g mx fuel idx cw).map
            (fun r => (scaleServer k r.1, r.2.1, k * r.2.2)) := by
  intro fuel
  induction fuel with
  | zero => intro idx cw; rfl
  | succ fuel ih =>
    intro idx cw
    have hk0 : (0 : Int) < k := by omega
    simp only [nextLoop, List.length_map]
    set j : Int := (idx + 1).tmod (l.length : Int) with hj
    have hcw' :
        (if j = 0 then (if k * cw - k * g ≤ 0 then k * mx else k * cw - k * g) else k * cw)
          = k * (if j = 0 then (if cw - g ≤ 0 then mx else cw - g) else cw) := by
      by_cases h1 : j = 0
      · rw [if_pos h1, if_pos h1]
        have he : k * cw - k * g = k * (cw - g) := by ring
        rw [he]
        by_cases h2 : cw - g ≤ 0
        · rw [if_pos h2, if_pos (by nlinarith)]
        · rw [if_neg h2, if_neg (by push_neg at h2 ⊢; nlinarith)]
      · rw [if_neg h1, if_neg h1]
    rw [hcw', getD_scale]
    set c : Int := if j = 0 then (if cw - g ≤ 0 then mx else cw - g) else cw with hc
    by_cases hs : (l.getD j.toNat ⟨0, 0⟩).weight ≥ c
    · rw [if_pos (show (scaleServer k (l.getD j.toNat ⟨0, 0⟩)).weight ≥ k * c from by
          simp only [scaleServer]; nlinarith),
        if_pos hs]
      rfl
    · rw [if_neg (show ¬ (scaleServer k (l.getD j.toNat ⟨0, 0⟩)).weight ≥ k * c from by
          simp only [scaleServer]; push_neg at hs ⊢; nlinarith),
        if_neg hs]
      exact ih j c

/-- Fields of the balancer other than the iteration state are preserved
by `next`, and on an error return the whole balancer is unchanged. -/
theorem next_fields (fuel : Nat) (b : WRRLoadBalancer) (r : NextResult)
    (b' : WRRLoadBalancer) (h : next fuel b = some (r, b')) :
    b'.servers = b.servers ∧ b'.status = b.status ∧ b'.updaters = b.updaters ∧
    (∀ e : NextError, r = NextResult.err e → b' = b) := by
  unfold next at h
  split at h
  · obtain ⟨hr, hb⟩ := Prod.mk.inj (Option.some.inj h)
    subst hr; subst hb
    exact ⟨rfl, rfl, rfl, fun e _ => rfl⟩
  · split at h
    · obtain ⟨hr, hb⟩ := Prod.mk.inj (Option.some.inj h)
      subst hr; subst hb
      exact ⟨rfl, rfl, rfl, fun e _ => rfl⟩
    · split at h
      · exact absurd h (by simp)
      · obtain ⟨hr, hb⟩ := Prod.mk.inj (Option.some.inj h)
        subst hr; subst hb
        exact ⟨rfl, rfl, rfl, fun e he => absurd he (by simp)⟩

theorem next_scale (l : List server) (k : Int) (hk : 1 ≤ k)
    (hnn : ∀ s ∈ l, 0 ≤ s.weight) (fuel : Nat) (cw idx : Int) :
    next fuel ⟨l.map (scaleServer k), k * cw, idx, none, []⟩
      = (next fuel ⟨l, cw, idx, none, []⟩).map
          (fun r => ((match r.1 with
                      | NextResult.err e => NextResult.err e
                      | NextResult.ok srv => NextResult.ok (scaleServer k srv)),
                     ⟨l.map (scaleServer k), k * r.2.currentWeight, r.2.index, none, []⟩)) := by
  by_cases h0 : l.length = 0
  · have hnil : l = [] := List.length_eq_zero.mp h0
    subst hnil
    rfl
  · have hne : l ≠ [] := by intro h; exact h0 (by rw [h]; rfl)
    have hmax := maxWeight_scale k hk l hnn hne
    have hgcd := weightGcd_scale k hk l hnn hne
    unfold next
    simp only [List.length_map]
    rw [if_neg h0, if_neg h0]
    show (if maxWeight (l.map (scaleServer k)) = 0 then _ else _) = _
    rw [hmax]
    by_cases h1 : maxWeight l = 0
    · rw [if_pos (by rw [h1]; ring), if_pos h1]
      rfl
    · rw [if_neg (fun hcontra => h1 (by
          rcases mul_eq_zero.mp hcontra with h | h
          · omega
          · exact h)),
        if_neg h1]
      show (match nextLoop (l.map (scaleServer k)) (weightGcd (l.map (scaleServer k)))
          (k * maxWeight l) fuel idx (k * cw) with
        | none => none
        | some (srv, i, c) => some (NextResult.ok srv, _)) = _
      rw [hgcd, nextLoop_scale l k (weightGcd l) (maxWeight l) hk fuel idx cw]
      cases hl : nextLoop l (weightGcd l) (maxWeight l) fuel idx cw with
      | none => rfl
      | some v =>
        obtain ⟨srv, i, c⟩ := v
        rfl

theorem runCalls_scale (l : List server) (k : Int) (hk : 1 ≤ k)
    (hnn : ∀ s ∈ l, 0 ≤ s.weight) :
    ∀ (t : Nat) (cw idx : Int),
      runCalls (l.map (scaleServer k)).length ⟨l.map (scaleServer k), k * cw, idx, none, []⟩ t
        = (runCalls l.length ⟨l, cw, idx, none, []⟩ t).map
            (fun p => (p.1,
              ⟨l.map (scaleServer k), k * p.2.currentWeight, p.2.index, none, []⟩)) := by
  intro t
  induction t with
  | zero => intro cw idx; rfl
  | succ t ih =>
    intro cw idx
    have hlen : (l.map (scaleServer k)).length = l.length := List.length_map l _
    have hsc := next_scale l k hk hnn l.length cw idx
    simp only [runCalls, hlen, hsc]
    cases hnx : next l.length ⟨l, cw, idx, none, []⟩ with
    | none => rfl
    | some v =>
      obtain ⟨r, b₂⟩ := v
      cases r with
      | err e => rfl
      | ok srv =>
        obtain ⟨hsrv, hstat, hupd, -⟩ := next_fields _ _ _ _ hnx
        have hb₂ : b₂ = ⟨l, b₂.currentWeight, b₂.index, none, []⟩ := by
          cases b₂
          simp only [WRRLoadBalancer.mk.injEq]
          exact ⟨hsrv, trivial, trivial, hstat, hupd⟩
        have ih' := ih b₂.currentWeight b₂.index
        rw [hlen] at ih'
        simp only [Option.map_some']
        rw [ih']
        conv_rhs => rw [hb₂]
        cases hrc : runCalls l.length ⟨l, b₂.currentWeight, b₂.index, none, []⟩ t with
        | none => rfl
        | some p =>
          obtain ⟨tr, b₃⟩ := p
          rfl

/-! ## The selection schedule of a positive-weight pool

For a pool whose weights are all at least 1, the loop's walk from a
fresh balancer is described in closed form: visit `k` inspects entry
`k % n` under `currentWeight = cwOf (k / n)`, and `next` returns at the
first visit whose entry passes the test `weight ≥ currentWeight`. -/

theorem pool_g_pos (l : List server) (hne : l ≠ []) (hw1 : ∀ s ∈ l, 1 ≤ s.weight) :
    1 ≤ weightGcd l := by
  cases l with
  | nil => exact absurd rfl hne
  | cons t ll =>
    exact weightGcd_pos (t :: ll) (fun s hs => by have := hw1 s hs; omega) t
      (List.mem_cons_self t ll) (hw1 t (List.mem_cons_self t ll))

theorem pool_M_pos (l : List server) (hne : l ≠ []) (hw1 : ∀ s ∈ l, 1 ≤ s.weight) :
    1 ≤ maxWeight l := by
  cases l with
  | nil => exact absurd rfl hne
  | cons t ll =>
    have := maxWeight_pos (t :: ll) t (List.mem_cons_self t ll)
      (hw1 t (List.mem_cons_self t ll))
    omega

theorem pool_g_dvd_M (l : List server) (hne : l ≠ []) (hw1 : ∀ s ∈ l, 1 ≤ s.weight) :
    weightGcd l ∣ maxWeight l := by
  have hM : 0 < maxWeight l := by have := pool_M_pos l hne hw1; omega
  obtain ⟨jm, hjm, hw⟩ := maxWeight_attained l hM
  have hmem : l.getD jm ⟨0, 0⟩ ∈ l := by
    rw [List.getD_eq_getElem _ _ hjm]
    exact List.getElem_mem hjm
  have := weightGcd_dvd l (fun s hs => by have := hw1 s hs; omega) _ hmem
  rw [hw] at this
  exact this

theorem pool_M_eq (l : List server) (hne : l ≠ []) (hw1 : ∀ s ∈ l, 1 ≤ s.weight) :
    maxWeight l = weightGcd l * (mOf l : Int) := by
  obtain ⟨c, hc⟩ := pool_g_dvd_M l hne hw1
  have hg := pool_g_pos l hne hw1
  have hM := pool_M_pos l hne hw1
  have hc0 : 0 < c := by nlinarith
  have h1 : (maxWeight l).toNat = (weightGcd l).toNat * c.toNat := by
    have h2 : maxWeight l = (((weightGcd l).toNat * c.toNat : Nat) : Int) := by
      push_cast
      rw [Int.toNat_of_nonneg (by omega : (0:Int) ≤ weightGcd l),
        Int.toNat_of_nonneg (by omega : (0:Int) ≤ c)]
      exact hc
    omega
  rw [mOf, h1, Nat.mul_div_cancel_left _ (by omega : 0 < (weightGcd l).toNat), hc,
    Int.toNat_of_nonneg (by omega : (0:Int) ≤ c)]

theorem pool_m_pos (l : List server) (hne : l ≠ []) (hw1 : ∀ s ∈ l, 1 ≤ s.weight) :
    1 ≤ mOf l := by
  have hMe := pool_M_eq l hne hw1
  have hM := pool_M_pos l hne hw1
  rcases Nat.eq_zero_or_pos (mOf l) with h | h
  · rw [h] at hMe
    simp at hMe
    omega
  · omega

theorem pool_w_facts (l : List server) (_hne : l ≠ []) (hw1 : ∀ s ∈ l, 1 ≤ s.weight)
    (j : Nat) (hj : j < l.length) :
    1 ≤ (l.getD j ⟨0, 0⟩).weight ∧ (l.getD j ⟨0, 0⟩).weight ≤ maxWeight l ∧
    weightGcd l ∣ (l.getD j ⟨0, 0⟩).weight := by
  have hmem : l.getD j ⟨0, 0⟩ ∈ l := by
    rw [List.getD_eq_getElem _ _ hj]
    exact List.getElem_mem hj
  exact ⟨hw1 _ hmem, maxWeight_ge l _ hmem,
    weightGcd_dvd l (fun s hs => by have := hw1 s hs; omega) _ hmem⟩

theorem cwOf_le_M (l : List server) (hne : l ≠ []) (hw1 : ∀ s ∈ l, 1 ≤ s.weight)
    (u : Nat) : cwOf l u ≤ maxWeight l := by
  rw [cwOf]
  have hg := pool_g_pos l hne hw1
  have h1 : (0:Int) ≤ weightGcd l * ((u % mOf l : Nat) : Int) :=
    mul_nonneg (by omega) (by positivity)
  omega

theorem g_le_cwOf (l : List server) (hne : l ≠ []) (hw1 : ∀ s ∈ l, 1 ≤ s.weight)
    (u : Nat) : weightGcd l ≤ cwOf l u := by
  rw [cwOf, pool_M_eq l hne hw1]
  have hg := pool_g_pos l hne hw1
  have hm := pool_m_pos l hne hw1
  have hlt : u % mOf l < mOf l := Nat.mod_lt _ (by omega)
  have h1 : (0:Int) ≤ (mOf l : Int) - ((u % mOf l : Nat) : Int) - 1 := by omega
  nlinarith [mul_nonneg (show (0:Int) ≤ weightGcd l from by omega) h1]

theorem cwOf_zero (l : List server) : cwOf l 0 = maxWeight l := by
  rw [cwOf, Nat.zero_mod]
  simp

theorem cwOf_succ (l : List server) (hne : l ≠ []) (hw1 : ∀ s ∈ l, 1 ≤ s.weight)
    (u : Nat) :
    (if cwOf l u - weightGcd l ≤ 0 then maxWeight l else cwOf l u - weightGcd l)
      = cwOf l (u + 1) := by
  have hg := pool_g_pos l hne hw1
  have hm := pool_m_pos l hne hw1
  have hMe := pool_M_eq l hne hw1
  have hr : u % mOf l < mOf l := Nat.mod_lt _ (by omega)
  have hmod : (u + 1) % mOf l = (u % mOf l + 1) % mOf l := (Nat.mod_add_mod u (mOf l) 1).symm
  by_cases hcase : u % mOf l + 1 = mOf l
  · have h1 : cwOf l u - weightGcd l = 0 := by
      rw [cwOf, hMe]
      have h2 : ((u % mOf l : Nat) : Int) = (mOf l : Int) - 1 := by omega
      rw [h2]
      ring
    rw [if_pos (by omega)]
    have h2 : (u + 1) % mOf l = 0 := by rw [hmod, hcase, Nat.mod_self]
    rw [cwOf, h2]
    simp
  · have h2 : (u + 1) % mOf l = u % mOf l + 1 := by
      rw [hmod, Nat.mod_eq_of_lt (by omega)]
    have h3 : cwOf l u - weightGcd l = cwOf l (u + 1) := by
      rw [cwOf, cwOf, h2]
      push_cast
      ring
    have h4 : ¬ (cwOf l u - weightGcd l ≤ 0) := by
      rw [h3]
      have := g_le_cwOf l hne hw1 (u + 1)
      omega
    rw [if_neg h4, h3]

theorem idxAt_nonneg (l : List server) (p : Nat) : -1 ≤ idxAt l p := by
  rw [idxAt]
  split_ifs <;> omega

theorem idxAt_walk (l : List server) (_hn : 0 < l.length) (p : Nat) :
    (idxAt l p + 1).toNat % l.length = p % l.length := by
  rw [idxAt]
  by_cases h : p = 0
  · rw [if_pos h, h]
    simp
  · rw [if_neg h]
    obtain ⟨q, rfl⟩ : ∃ q, p = q + 1 := ⟨p - 1, by omega⟩
    simp only [Nat.add_sub_cancel]
    have h1 : ((((q % l.length : Nat) : Int)) + 1).toNat = q % l.length + 1 := by omega
    rw [h1, Nat.mod_add_mod]

theorem cwAt_succ_div (l : List server) (p : Nat) :
    cwAt l (p + 1) = cwOf l (p / l.length) := by
  rw [cwAt]
  simp

theorem idxAt_succ_eq (l : List server) (p : Nat) :
    idxAt l (p + 1) = ((p % l.length : Nat) : Int) := by
  rw [idxAt]
  simp

theorem cwAt_step (l : List server) (hne : l ≠ []) (hw1 : ∀ s ∈ l, 1 ≤ s.weight)
    (p : Nat) :
    (if p % l.length = 0 then
      (if cwAt l p - weightGcd l ≤ 0 then maxWeight l else cwAt l p - weightGcd l)
     else cwAt l p) = cwOf l (p / l.length) := by
  by_cases hp : p = 0
  · subst hp
    rw [if_pos (Nat.zero_mod _)]
    have hg := pool_g_pos l hne hw1
    rw [show cwAt l 0 = 0 from rfl, if_pos (by omega), Nat.zero_div, cwOf_zero]
  · obtain ⟨q, rfl⟩ : ∃ q, p = q + 1 := ⟨p - 1, by omega⟩
    have hcwAt1 : cwAt l (q + 1) = cwOf l (q / l.length) := cwAt_succ_div l q
    by_cases hw : (q + 1) % l.length = 0
    · rw [if_pos hw, hcwAt1]
      have hdvd : l.length ∣ q + 1 := Nat.dvd_of_mod_eq_zero hw
      have hdiv : (q + 1) / l.length = q / l.length + 1 := by
        rw [Nat.succ_div, if_pos hdvd]
      rw [hdiv]
      exact cwOf_succ l hne hw1 (q / l.length)
    · rw [if_neg hw, hcwAt1]
      have hdiv : (q + 1) / l.length = q / l.length := by
        rw [Nat.succ_div, if_neg (fun hd => hw (Nat.mod_eq_zero_of_dvd hd))]
        omega
      rw [hdiv]

/-- One visit of the loop, phrased on the schedule: from the state about
to perform visit `p`, one iteration either returns the entry of visit
`p` (when selected) or moves to the state about to perform visit
`p + 1`. -/
theorem visit_step (l : List server) (hne : l ≠ []) (hw1 : ∀ s ∈ l, 1 ≤ s.weight)
    (p fuel : Nat) :
    nextLoop l (weightGcd l) (maxWeight l) (fuel + 1) (idxAt l p) (cwAt l p)
      = (if (l.getD (p % l.length) ⟨0, 0⟩).weight ≥ cwOf l (p / l.length)
         then some (l.getD (p % l.length) ⟨0, 0⟩, idxAt l (p + 1), cwOf l (p / l.length))
         else nextLoop l (weightGcd l) (maxWeight l) fuel (idxAt l (p + 1))
            (cwOf l (p / l.length))) := by
  have hn : 0 < l.length := List.length_pos.mpr hne
  rw [nextLoop_step l _ _ fuel _ _ (idxAt_nonneg l p), idxAt_walk l hn p,
    cwAt_step l hne hw1 p, idxAt_succ_eq l p]

/-- A full `next` call scans visits `p, p+1, …` and returns at the first
selected one. -/
theorem call_eq (l : List server) (hne : l ≠ []) (hw1 : ∀ s ∈ l, 1 ≤ s.weight) :
    ∀ (fuel p q : Nat), p ≤ q → q < p + fuel →
      visitSel l q = true → (∀ r, p ≤ r → r < q → visitSel l r = false) →
      nextLoop l (weightGcd l) (maxWeight l) fuel (idxAt l p) (cwAt l p)
        = some (l.getD (q % l.length) ⟨0, 0⟩, idxAt l (q + 1), cwOf l (q / l.length)) := by
  intro fuel
  induction fuel with
  | zero => intro p q h1 h2 _ _; omega
  | succ fuel ih =>
    intro p q hpq hlt hsel hmin
    rw [visit_step l hne hw1 p fuel]
    by_cases hp : (l.getD (p % l.length) ⟨0, 0⟩).weight ≥ cwOf l (p / l.length)
    · rw [if_pos hp]
      have hq : q = p := by
        by_contra hne'
        have hlt2 : p < q := by omega
        have hfalse := hmin p le_rfl hlt2
        rw [visitSel] at hfalse
        simp only [decide_eq_false_iff_not] at hfalse
        exact hfalse hp
      subst hq
      rfl
    · rw [if_neg hp]
      have hq : p ≠ q := by
        intro h
        subst h
        rw [visitSel] at hsel
        simp only [decide_eq_true_eq] at hsel
        exact hp hsel
      rw [← cwAt_succ_div l p]
      exact ih (p + 1) q (by omega) (by omega) hsel (fun r hr1 hr2 => hmin r (by omega) hr2)

/-- In every window of `poolSize` consecutive visits at least one visit
is selected (the visit of a maximum-weight entry always passes). -/
theorem exists_sel (l : List server) (hne : l ≠ []) (hw1 : ∀ s ∈ l, 1 ≤ s.weight)
    (p : Nat) : ∃ st, st < l.length ∧ visitSel l (p + st) = true := by
  have hn : 0 < l.length := List.length_pos.mpr hne
  have hM : 0 < maxWeight l := by have := pool_M_pos l hne hw1; omega
  obtain ⟨jm, hjm, hwj⟩ := maxWeight_attained l hM
  refine ⟨(jm + l.length - p % l.length) % l.length, Nat.mod_lt _ hn, ?_⟩
  have ha : p % l.length < l.length := Nat.mod_lt _ hn
  have hmod : (p + (jm + l.length - p % l.length) % l.length) % l.length = jm := by
    have h1 : (p + (jm + l.length - p % l.length) % l.length) % l.length
        = (p + (jm + l.length - p % l.length)) % l.length := by
      conv_lhs => rw [Nat.add_comm]
      rw [Nat.mod_add_mod, Nat.add_comm]
    rw [h1]
    have h2 : p + (jm + l.length - p % l.length)
        = l.length * (p / l.length) + (jm + l.length) := by
      have := Nat.div_add_mod p l.length
      omega
    rw [h2, Nat.mul_add_mod, Nat.add_mod_right, Nat.mod_eq_of_lt hjm]
  rw [visitSel, hmod, hwj]
  simp only [decide_eq_true_eq]
  exact cwOf_le_M l hne hw1 _

/-- A full `next` call, at the level of balancer states of the
schedule. -/
theorem next_stateAt (l : List server) (hne : l ≠ []) (hw1 : ∀ s ∈ l, 1 ≤ s.weight)
    (p q : Nat) (hpq : p ≤ q) (hlt : q < p + l.length)
    (hsel : visitSel l q = true) (hmin : ∀ r, p ≤ r → r < q → visitSel l r = false) :
    next l.length (stateAt l p)
      = some (.ok (l.getD (q % l.length) ⟨0, 0⟩), stateAt l (q + 1)) := by
  have hn : 0 < l.length := List.length_pos.mpr hne
  have hM : 1 ≤ maxWeight l := pool_M_pos l hne hw1
  unfold next
  simp only [stateAt]
  rw [if_neg (by omega), if_neg (by omega)]
  rw [call_eq l hne hw1 l.length p q hpq hlt hsel hmin]
  rfl

theorem selCount_add (l : List server) (p a b : Nat) :
    selCount l p (a + b) = selCount l p a + selCount l (p + a) b := by
  rw [selCount, selCount, selCount, List.range_add, List.countP_append, List.countP_map]
  have hfg : ((fun d => visitSel l (p + d)) ∘ fun x => a + x)
      = fun d => visitSel l (p + a + d) := by
    funext d
    show visitSel l (p + (a + d)) = visitSel l (p + a + d)
    rw [Nat.add_assoc]
  rw [hfg]

theorem selCountAt_add (l : List server) (i p a b : Nat) :
    selCountAt l i p (a + b) = selCountAt l i p a + selCountAt l i (p + a) b := by
  rw [selCountAt, selCountAt, selCountAt, List.range_add, List.countP_append,
    List.countP_map]
  have hfg : ((fun d => visitSel l (p + d) && ((p + d) % l.length == i)) ∘ fun x => a + x)
      = fun d => visitSel l (p + a + d) && ((p + a + d) % l.length == i) := by
    funext d
    show (visitSel l (p + (a + d)) && ((p + (a + d)) % l.length == i))
      = (visitSel l (p + a + d) && ((p + a + d) % l.length == i))
    rw [Nat.add_assoc]
  rw [hfg]

theorem selCount_single (l : List server) (p : Nat) :
    selCount l p 1 = if visitSel l p then 1 else 0 := by
  rw [selCount, show List.range 1 = [0] from by decide]
  simp only [List.countP_cons, List.countP_nil, Nat.add_zero, Nat.zero_add]

theorem selCountAt_single (l : List server) (i p : Nat) :
    selCountAt l i p 1 = if visitSel l p && (p % l.length == i) then 1 else 0 := by
  rw [selCountAt, show List.range 1 = [0] from by decide]
  simp only [List.countP_cons, List.countP_nil, Nat.add_zero, Nat.zero_add]

theorem selCount_zero_of (l : List server) (p a : Nat)
    (h : ∀ r, p ≤ r → r < p + a → visitSel l r = false) : selCount l p a = 0 := by
  rw [selCount]
  apply List.countP_eq_zero.mpr
  intro d hd
  have hr := h (p + d) (by omega) (by have := List.mem_range.mp hd; omega)
  simp [hr]

theorem selCountAt_zero_of (l : List server) (i p a : Nat)
    (h : ∀ r, p ≤ r → r < p + a → visitSel l r = false) : selCountAt l i p a = 0 := by
  rw [selCountAt]
  apply List.countP_eq_zero.mpr
  intro d hd
  have hr := h (p + d) (by omega) (by have := List.mem_range.mp hd; omega)
  simp [hr]

/-- The multi-call correspondence: `T` successive `next` calls starting
at the state about to perform visit `p` consume a window of `L` visits
containing exactly `T` selected ones (the last visit of the window being
selected), record the visited entry index per selected visit, and leave
the balancer about to perform visit `p + L`. -/
theorem runCalls_stateAt (l : List server) (hne : l ≠ []) (hw1 : ∀ s ∈ l, 1 ≤ s.weight) :
    ∀ (T p : Nat), ∃ (L : Nat) (tr : List Nat),
      runCalls l.length (stateAt l p) T = some (tr, stateAt l (p + L)) ∧
      tr.length = T ∧
      (∀ i, tr.count i = selCountAt l i p L) ∧
      selCount l p L = T ∧
      (T = 0 → L = 0) ∧
      (0 < T → 0 < L ∧ visitSel l (p + L - 1) = true) := by
  intro T
  induction T with
  | zero =>
    intro p
    refine ⟨0, [], ?_, rfl, ?_, rfl, fun _ => rfl, fun h => absurd h (by omega)⟩
    · rw [Nat.add_zero]; rfl
    · intro i; rfl
  | succ T ih =>
    intro p
    obtain ⟨st0, hst0, hsel0⟩ := exists_sel l hne hw1 p
    have hexf : ∃ st, visitSel l (p + st) = true := ⟨st0, hsel0⟩
    have hsel : visitSel l (p + Nat.find hexf) = true := Nat.find_spec hexf
    have hstlt : Nat.find hexf < l.length := by
      have := Nat.find_min' hexf hsel0
      omega
    have hmin : ∀ r, p ≤ r → r < p + Nat.find hexf → visitSel l r = false := by
      intro r hr1 hr2
      have hm := Nat.find_min hexf (show r - p < Nat.find hexf from by omega)
      rw [show p + (r - p) = r from by omega] at hm
      simpa using hm
    have hcall := next_stateAt l hne hw1 p (p + Nat.find hexf) (by omega) (by omega)
      hsel (fun r h1 h2 => hmin r h1 h2)
    obtain ⟨L', tr', hrun', hlen', hcount', hsc', hzero', hpos'⟩ := ih (p + Nat.find hexf + 1)
    refine ⟨Nat.find hexf + 1 + L', ((p + Nat.find hexf) % l.length) :: tr',
      ?_, ?_, ?_, ?_, ?_, ?_⟩
    · simp only [runCalls, hcall, hrun']
      have hidx : (stateAt l (p + Nat.find hexf + 1)).index
          = (((p + Nat.find hexf) % l.length : Nat) : Int) := by
        simp only [stateAt]
        exact idxAt_succ_eq l (p + Nat.find hexf)
      rw [hidx, Int.toNat_natCast,
        show p + (Nat.find hexf + 1 + L') = p + Nat.find hexf + 1 + L' from by omega]
    · simp [hlen']
    · intro i
      rw [List.count_cons, hcount' i,
        show Nat.find hexf + 1 + L' = Nat.find hexf + (1 + L') from by omega,
        selCountAt_add, selCountAt_add, selCountAt_zero_of l i p (Nat.find hexf) hmin,
        selCountAt_single, hsel]
      by_cases hqi : ((p + Nat.find hexf) % l.length == i) = true
      · simp only [hqi, Bool.true_and, if_true]
        omega
      · simp only [hqi, Bool.true_and, Bool.false_eq_true, if_false]
        omega
    · rw [show Nat.find hexf + 1 + L' = Nat.find hexf + (1 + L') from by omega,
        selCount_add, selCount_add, selCount_zero_of l p (Nat.find hexf) hmin,
        selCount_single, hsel, hsc']
      rw [if_pos (rfl : (true : Bool) = true)]
      omega
    · intro h; omega
    · intro _
      refine ⟨by omega, ?_⟩
      rcases Nat.eq_zero_or_pos T with hT | hT
      · have hL' : L' = 0 := hzero' hT
        rw [hL', show p + (Nat.find hexf + 1 + 0) - 1 = p + Nat.find hexf from by omega]
        exact hsel
      · obtain ⟨-, hlast⟩ := hpos' hT
        rw [show p + (Nat.find hexf + 1 + L') - 1 = p + Nat.find hexf + 1 + L' - 1 from
          by omega]
        exact hlast

/-! ## Periodicity of the schedule and per-cycle selection counts -/

theorem visitSel_period (l : List server) (hne : l ≠ []) (k : Nat) :
    visitSel l (k + l.length * mOf l) = visitSel l k := by
  have hn : 0 < l.length := List.length_pos.mpr hne
  rw [visitSel, visitSel, Nat.add_mul_mod_self_left, Nat.add_mul_div_left k (mOf l) hn]
  have h3 : cwOf l (k / l.length + mOf l) = cwOf l (k / l.length) := by
    rw [cwOf, cwOf, Nat.add_mod_right]
  rw [h3]

theorem visitSel_shift_mul (l : List server) (hne : l ≠ []) (t k : Nat) :
    visitSel l (k + t * (l.length * mOf l)) = visitSel l k := by
  induction t with
  | zero => rw [Nat.zero_mul, Nat.add_zero]
  | succ t ih =>
    rw [Nat.succ_mul, ← Nat.add_assoc, visitSel_period l hne, ih]

theorem selCount_shift_mul (l : List server) (hne : l ≠ []) (t p L : Nat) :
    selCount l (p + t * (l.length * mOf l)) L = selCount l p L := by
  rw [selCount, selCount]
  have hfg : (fun d => visitSel l (p + t * (l.length * mOf l) + d))
      = fun d => visitSel l (p + d) := by
    funext d
    rw [show p + t * (l.length * mOf l) + d = (p + d) + t * (l.length * mOf l) from
        by omega,
      visitSel_shift_mul l hne]
  rw [hfg]

theorem selCountAt_shift_mul (l : List server) (hne : l ≠ []) (i t p L : Nat) :
    selCountAt l i (p + t * (l.length * mOf l)) L = selCountAt l i p L := by
  rw [selCountAt, selCountAt]
  have hfg : (fun d => visitSel l (p + t * (l.length * mOf l) + d)
        && ((p + t * (l.length * mOf l) + d) % l.length == i))
      = fun d => visitSel l (p + d) && ((p + d) % l.length == i) := by
    funext d
    rw [show p + t * (l.length * mOf l) + d = (p + d) + t * (l.length * mOf l) from
        by omega,
      visitSel_shift_mul l hne,
      show (p + d) + t * (l.length * mOf l) = (p + d) + l.length * (mOf l * t) from
        by ring,
      Nat.add_mul_mod_self_left]
  rw [hfg]

/-- The last visit of each cycle (entry `n-1` under plateau `g`) is
always selected. -/
theorem sel_last_visit (l : List server) (hne : l ≠ []) (hw1 : ∀ s ∈ l, 1 ≤ s.weight) :
    visitSel l (l.length * mOf l - 1) = true := by
  have hn : 0 < l.length := List.length_pos.mpr hne
  have hm := pool_m_pos l hne hw1
  have hg := pool_g_pos l hne hw1
  obtain ⟨m', hm'⟩ : ∃ m', mOf l = m' + 1 := ⟨mOf l - 1, by omega⟩
  have hidx : l.length * mOf l - 1 = l.length * m' + (l.length - 1) := by
    rw [hm', Nat.mul_succ]
    omega
  rw [hidx, visitSel]
  have h1 : (l.length * m' + (l.length - 1)) % l.length = l.length - 1 := by
    rw [Nat.mul_add_mod, Nat.mod_eq_of_lt (by omega)]
  have h2 : (l.length * m' + (l.length - 1)) / l.length = m' := by
    rw [Nat.mul_add_div hn, Nat.div_eq_of_lt (by omega), Nat.add_zero]
  rw [h1, h2]
  have h3 : cwOf l m' = weightGcd l := by
    rw [cwOf, pool_M_eq l hne hw1, hm', Nat.mod_eq_of_lt (by omega)]
    push_cast
    ring
  rw [h3]
  obtain ⟨hw, -, hdvd⟩ := pool_w_facts l hne hw1 (l.length - 1) (by omega)
  simp only [decide_eq_true_eq]
  exact Int.le_of_dvd (by omega) hdvd

theorem sel_last_of_period (l : List server) (hne : l ≠ [])
    (hw1 : ∀ s ∈ l, 1 ≤ s.weight) (t : Nat) (ht : 0 < t) :
    visitSel l (t * (l.length * mOf l) - 1) = true := by
  have hn : 0 < l.length := List.length_pos.mpr hne
  have hm := pool_m_pos l hne hw1
  have hP : 1 ≤ l.length * mOf l := Nat.mul_pos hn (by omega)
  obtain ⟨t', rfl⟩ : ∃ t', t = t' + 1 := ⟨t - 1, by omega⟩
  have harith : (t' + 1) * (l.length * mOf l) - 1
      = (l.length * mOf l - 1) + t' * (l.length * mOf l) := by
    rw [Nat.succ_mul]
    omega
  rw [harith, visitSel_shift_mul l hne, sel_last_visit l hne hw1]

/-- Within one block of `n` visits under plateau `u`, entry `i` is
visited exactly once, at visit `n*u + i`. -/
theorem selCountAt_block_single (l : List server) (u i : Nat) (hi : i < l.length) :
    selCountAt l i (l.length * u) l.length
      = if visitSel l (l.length * u + i) then 1 else 0 := by
  rw [selCountAt]
  rw [List.countP_congr (q := fun d => visitSel l (l.length * u + d) && (d == i))
    (fun d hd => by
      have hdlt := List.mem_range.mp hd
      rw [Nat.mul_add_mod, Nat.mod_eq_of_lt hdlt])]
  rw [← List.countP_filter, show (List.range l.length).filter (fun d => d == i) = [i] from by
      rw [List.filter_beq, List.count_eq_one_of_mem (List.nodup_range _)
        (List.mem_range.mpr hi)]
      rfl]
  simp [List.countP_cons]

theorem selCountAt_cycle (l : List server) (i : Nat) (hi : i < l.length) :
    ∀ u : Nat, selCountAt l i 0 (l.length * u)
      = (List.range u).countP fun v => visitSel l (l.length * v + i) := by
  intro u
  induction u with
  | zero => rw [Nat.mul_zero]; rfl
  | succ u ih =>
    rw [Nat.mul_succ, selCountAt_add, Nat.zero_add, ih,
      selCountAt_block_single l u i hi, List.range_succ, List.countP_append]
    simp [List.countP_cons]

/-- Entry `i` (of weight `g·d`) is selected exactly `d` times per full
cycle of `n·m` visits. -/
theorem selCountAt_period_val (l : List server) (hne : l ≠ [])
    (hw1 : ∀ s ∈ l, 1 ≤ s.weight) (i : Nat) (hi : i < l.length) (d : Nat)
    (hd : (l.getD i ⟨0, 0⟩).weight = weightGcd l * d) :
    selCountAt l i 0 (l.length * mOf l) = d := by
  have hn : 0 < l.length := List.length_pos.mpr hne
  have hg := pool_g_pos l hne hw1
  have hm := pool_m_pos l hne hw1
  obtain ⟨hw1i, hwM, -⟩ := pool_w_facts l hne hw1 i hi
  have hd1 : 1 ≤ d := by
    rcases Nat.eq_zero_or_pos d with h | h
    · rw [h, Nat.cast_zero, mul_zero] at hd
      omega
    · omega
  have hdm : d ≤ mOf l := by
    rw [hd, pool_M_eq l hne hw1] at hwM
    by_contra hc
    push_neg at hc
    have hcast : (mOf l : Int) < (d : Int) := by exact_mod_cast hc
    nlinarith
  rw [selCountAt_cycle l i hi (mOf l)]
  rw [List.countP_congr (q := fun v => decide (mOf l - d ≤ v)) (fun v hv => by
    have hvlt := List.mem_range.mp hv
    rw [visitSel]
    have h1 : (l.length * v + i) % l.length = i := by
      rw [Nat.mul_add_mod, Nat.mod_eq_of_lt hi]
    have h2 : (l.length * v + i) / l.length = v := by
      rw [Nat.mul_add_div hn, Nat.div_eq_of_lt hi, Nat.add_zero]
    have h3 : cwOf l v = weightGcd l * ((mOf l : Int) - (v : Int)) := by
      rw [cwOf, Nat.mod_eq_of_lt hvlt, pool_M_eq l hne hw1]
      ring
    rw [h1, h2, hd, h3]
    simp only [decide_eq_true_eq]
    constructor
    · intro h
      have h4 : (mOf l : Int) - v ≤ d := by nlinarith
      omega
    · intro h
      have h4 : (mOf l : Int) - (v : Int) ≤ (d : Int) := by omega
      nlinarith)]
  have key : ∀ (c dd : Nat), (List.range (c + dd)).countP (fun v => decide (c ≤ v)) = dd := by
    intro c dd
    rw [List.range_add, List.countP_append, List.countP_map]
    have hz : (List.range c).countP (fun v => decide (c ≤ v)) = 0 := by
      apply List.countP_eq_zero.mpr
      intro v hv
      have := List.mem_range.mp hv
      simp only [decide_eq_true_eq]
      omega
    have hfull : (List.range dd).countP ((fun v => decide (c ≤ v)) ∘ fun x => c + x) = dd := by
      have hlen : (List.range dd).countP ((fun v => decide (c ≤ v)) ∘ fun x => c + x)
          = (List.range dd).length :=
        List.countP_eq_length.mpr (fun v _ => by
          show decide (c ≤ c + v) = true
          simp)
      rw [hlen, List.length_range]
    rw [hz, hfull, Nat.zero_add]
  have hkey := key (mOf l - d) d
  rw [show (mOf l - d) + d = mOf l from by omega] at hkey
  exact hkey

theorem sumWeights_cons (t : server) (ll : List server) :
    sumWeights (t :: ll) = t.weight + sumWeights ll := by
  simp [sumWeights]

theorem sumWeights_nonneg (l : List server) (h : ∀ s ∈ l, 0 ≤ s.weight) :
    0 ≤ sumWeights l := by
  induction l with
  | nil => simp [sumWeights]
  | cons t ll ih =>
    rw [sumWeights_cons]
    have h1 := h t (List.mem_cons_self t ll)
    have h2 := ih (fun s hs => h s (List.mem_cons_of_mem t hs))
    omega

theorem sumWeights_pos (l : List server) (hne : l ≠ []) (hw1 : ∀ s ∈ l, 1 ≤ s.weight) :
    1 ≤ sumWeights l := by
  cases l with
  | nil => exact absurd rfl hne
  | cons t ll =>
    rw [sumWeights_cons]
    have h1 := hw1 t (List.mem_cons_self t ll)
    have h2 := sumWeights_nonneg ll (fun s hs => by
      have := hw1 s (List.mem_cons_of_mem t hs); omega)
    omega

theorem sum_weights_getD (l : List server) :
    ∑ i ∈ Finset.range l.length, (l.getD i ⟨0, 0⟩).weight = sumWeights l := by
  induction l with
  | nil => simp [sumWeights]
  | cons t ll ih =>
    rw [show (t :: ll).length = ll.length + 1 from rfl, Finset.sum_range_succ']
    simp only [List.getD_cons_succ, List.getD_cons_zero]
    rw [ih, sumWeights_cons]
    ring

/-- The per-cycle selection count of entry `i`, times the gcd, is the
entry's weight. -/
theorem selCountAt_mul_g (l : List server) (hne : l ≠ [])
    (hw1 : ∀ s ∈ l, 1 ≤ s.weight) (i : Nat) (hi : i < l.length) :
    ((selCountAt l i 0 (l.length * mOf l) : Nat) : Int) * weightGcd l
      = (l.getD i ⟨0, 0⟩).weight := by
  obtain ⟨hw1i, -, hdvd⟩ := pool_w_facts l hne hw1 i hi
  have hg := pool_g_pos l hne hw1
  obtain ⟨c, hc⟩ := hdvd
  have hc0 : 0 ≤ c := by nlinarith
  have hceq : (l.getD i ⟨0, 0⟩).weight = weightGcd l * ((c.toNat : Nat) : Int) := by
    rw [Int.toNat_of_nonneg hc0]
    exact hc
  rw [selCountAt_period_val l hne hw1 i hi c.toNat hceq, hceq]
  ring

theorem sum_indicator_beq (n x : Nat) (hx : x < n) :
    ∑ i ∈ Finset.range n, (if (x == i) = true then (1 : Nat) else 0) = 1 := by
  have hpt : ∀ i ∈ Finset.range n,
      (if (x == i) = true then (1 : Nat) else 0) = if x = i then 1 else 0 := by
    intro i _
    by_cases h : x = i
    · simp [h]
    · simp [h]
  rw [Finset.sum_congr rfl hpt,
    Finset.sum_ite_eq (Finset.range n) x fun _ => (1 : Nat),
    if_pos (Finset.mem_range.mpr hx)]

/-- Counting over an initial segment splits by residue class modulo
`n`. -/
theorem countP_residue_partition (n : Nat) (hn : 0 < n) (P : Nat → Bool) :
    ∀ L : Nat, (List.range L).countP P
      = ∑ i ∈ Finset.range n, (List.range L).countP fun k => P k && (k % n == i) := by
  intro L
  induction L with
  | zero => simp
  | succ L ih =>
    have hsum : ∀ i ∈ Finset.range n,
        (List.range (L + 1)).countP (fun k => P k && (k % n == i))
          = (List.range L).countP (fun k => P k && (k % n == i))
            + (if (P L && (L % n == i)) = true then 1 else 0) := by
      intro i _
      rw [List.range_succ, List.countP_append]
      congr 1
      simp [List.countP_cons]
    rw [Finset.sum_congr rfl hsum, Finset.sum_add_distrib, ← ih,
      List.range_succ, List.countP_append]
    congr 1
    simp only [List.countP_cons, List.countP_nil, Nat.zero_add]
    by_cases hP : P L = true
    · rw [if_pos hP,
        Finset.sum_congr rfl (fun i _ => by rw [hP, Bool.true_and]),
        sum_indicator_beq n (L % n) (Nat.mod_lt _ hn)]
    · have hPf : P L = false := by revert hP; cases P L <;> simp
      rw [if_neg hP,
        Finset.sum_congr rfl (fun i _ => by rw [hPf, Bool.false_and])]
      simp

/-- Exactly `C` visits per full cycle are selected, where
`C * gcd = sum of weights`. -/
theorem selCount_period_total (l : List server) (hne : l ≠ [])
    (hw1 : ∀ s ∈ l, 1 ≤ s.weight) (C : Nat)
    (hC : (C : Int) * weightGcd l = sumWeights l) :
    selCount l 0 (l.length * mOf l) = C := by
  have hn : 0 < l.length := List.length_pos.mpr hne
  have hg := pool_g_pos l hne hw1
  have hsc : selCount l 0 (l.length * mOf l)
      = (List.range (l.length * mOf l)).countP fun d => visitSel l d := by
    rw [selCount]
    congr 1
    funext d
    rw [Nat.zero_add]
  rw [hsc, countP_residue_partition l.length hn (fun d => visitSel l d) _]
  have hterm : ∀ i ∈ Finset.range l.length,
      (List.range (l.length * mOf l)).countP (fun k => visitSel l k && (k % l.length == i))
        = selCountAt l i 0 (l.length * mOf l) := by
    intro i _
    rw [selCountAt]
    congr 1
    funext d
    rw [Nat.zero_add]
  rw [Finset.sum_congr rfl hterm]
  have hsum : ((∑ i ∈ Finset.range l.length,
        selCountAt l i 0 (l.length * mOf l) : Nat) : Int) * weightGcd l
      = sumWeights l := by
    rw [Nat.cast_sum, Finset.sum_mul,
      Finset.sum_congr rfl
        (fun i hi => selCountAt_mul_g l hne hw1 i (Finset.mem_range.mp hi))]
    exact sum_weights_getD l
  have hcancel := mul_right_cancel₀ (show weightGcd l ≠ 0 from by omega)
    (hsum.trans hC.symm)
  exact_mod_cast hcancel

theorem selCount_window_lt_aux (l : List server) (p T L L' : Nat)
    (h1 : selCount l p L = T) (h2 : selCount l p L' = T)
    (e2 : L' = 0 ∨ visitSel l (p + L' - 1) = true) (hlt : L < L') : False := by
  have he2 : visitSel l (p + L' - 1) = true := by
    rcases e2 with h | h
    · omega
    · exact h
  have hsplit : selCount l p L' = selCount l p L + selCount l (p + L) (L' - L) := by
    rw [← selCount_add l p L (L' - L), show L + (L' - L) = L' from by omega]
  have hz : selCount l (p + L) (L' - L) = 0 := by omega
  rw [selCount] at hz
  have hmem : (L' - L - 1) ∈ List.range (L' - L) := List.mem_range.mpr (by omega)
  have hfalse := List.countP_eq_zero.mp hz _ hmem
  rw [show p + L + (L' - L - 1) = p + L' - 1 from by omega, he2] at hfalse
  simp at hfalse

/-- A window that starts at `p`, ends on a selected visit and contains
exactly `T` selected visits is unique. -/
theorem selCount_window_unique (l : List server) (p T L L' : Nat)
    (h1 : selCount l p L = T) (e1 : L = 0 ∨ visitSel l (p + L - 1) = true)
    (h2 : selCount l p L' = T) (e2 : L' = 0 ∨ visitSel l (p + L' - 1) = true) :
    L = L' := by
  rcases Nat.lt_trichotomy L L' with h | h | h
  · exact (selCount_window_lt_aux l p T L L' h1 h2 e2 h).elim
  · exact h
  · exact (selCount_window_lt_aux l p T L' L h2 h1 e1 h).elim

/-- Splicing runs: `T₁ + T₂` calls are `T₁` calls followed by `T₂` calls
with the traces concatenated. -/
theorem runCalls_add (fuel : Nat) :
    ∀ (T₁ : Nat) (b : WRRLoadBalancer) (T₂ : Nat),
      runCalls fuel b (T₁ + T₂)
        = (match runCalls fuel b T₁ with
           | some (tr₁, b₁) =>
             (match runCalls fuel b₁ T₂ with
              | some (tr₂, b₂) => some (tr₁ ++ tr₂, b₂)
              | none => none)
           | none => none) := by
  intro T₁
  induction T₁ with
  | zero =>
    intro b T₂
    rw [Nat.zero_add]
    show runCalls fuel b T₂
        = (match runCalls fuel b T₂ with
           | some (tr₂, b₂) => some ([] ++ tr₂, b₂)
           | none => none)
    cases hrc : runCalls fuel b T₂ with
    | none => rfl
    | some p =>
      obtain ⟨tr, b₂⟩ := p
      rfl
  | succ T₁ ih =>
    intro b T₂
    rw [show T₁ + 1 + T₂ = (T₁ + T₂) + 1 from by omega]
    simp only [runCalls]
    cases hnx : next fuel b with
    | none => rfl
    | some v =>
      obtain ⟨r, b₁⟩ := v
      cases r with
      | err e => rfl
      | ok srv =>
        dsimp only
        rw [ih b₁ T₂]
        cases h1 : runCalls fuel b₁ T₁ with
        | none => rfl
        | some p =>
          obtain ⟨tr₁, b₂⟩ := p
          dsimp only
          cases h2 : runCalls fuel b₂ T₂ with
          | none => rfl
          | some q =>
            obtain ⟨tr₂, b₃⟩ := q
            dsimp only
            rw [List.cons_append]

/-! ## Claim theorems -/

/-- C1 (counterexample): for the pool `[A(weight 3), B(weight 1)]` on a
freshly constructed balancer, the four `next` calls of the first
weight-sum cycle select exactly `A,A,A,B` (indices `[0,0,0,1]`) — the
very pattern the claim asserts can never occur; the sequence is not an
interleaved cycle such as `A,B,A,A`. -/
theorem claim1_counterexample :
    callTrace [⟨0, 3⟩, ⟨1, 1⟩] 4 = some [0, 0, 0, 1] := by decide

/-- C1 (amended): for weights `[3,1]` from a freshly constructed
balancer, each weight-sum cycle of 4 `next` calls returns the weight-3
entry three times consecutively and then the weight-1 entry once:
the repeating pattern over two cycles is `A,A,A,B,A,A,A,B`.  The
algorithm selects in weight-sized contiguous runs, not interleaved. -/
theorem claim1_theorem :
    callTrace [⟨0, 3⟩, ⟨1, 1⟩] 8 = some [0, 0, 0, 1, 0, 0, 0, 1] := by decide

/-- C3 (code bug, evaluation at the failing input): `NewWRRLoadBalancer`
never initializes the `status` map, so the very first
`SetStatus(ctx, "a", true)` call on a freshly constructed balancer
panics (assignment to an entry in a nil map) instead of storing the
baseline entry as the claim (and the spec) state. -/
theorem claim3_theorem :
    SetStatus NewWRRLoadBalancer "a" true = SetStatusOutcome.nilMapPanic := rfl

/-- C2 (counterexample): the non-empty pool `[{weight: -2}]`, in which
every weight is negative, does not fail with `AllZeroWeightError`: the
computed maximum weight is `-1` (the fold starts at `-1`), so the
`max == 0` check passes and no error is returned at any fuel — `next`
instead enters the selection loop, which never returns (shown here for
0 and 400 iterations; the error checks of `next` precede the loop and
are independent of fuel). -/
theorem claim2_counterexample :
    maxWeight [⟨0, -2⟩] = -1 ∧
    next 0 (initB [⟨0, -2⟩]) = none ∧
    next 400 (initB [⟨0, -2⟩]) = none := by decide

/-- C5 (counterexample): the pool `[{weight: 2}, {weight: -3}]` is
non-empty with maximum weight `2 > 0`, so it satisfies the claim's
preconditions, and the iteration state `index = 0, currentWeight = 2` is
reached from a fresh balancer by two successful `next` calls; yet from
that state the selection loop does not return within `poolSize = 2`
iterations (nor within 100: the gcd computed for these weights is `-1`,
so `currentWeight` grows without bound). -/
theorem claim5_counterexample :
    maxWeight [⟨0, 2⟩, ⟨1, -3⟩] = 2 ∧
    runCalls 2 (initB [⟨0, 2⟩, ⟨1, -3⟩]) 2
      = some ([0, 0], ⟨[⟨0, 2⟩, ⟨1, -3⟩], 2, 0, none, []⟩) ∧
    nextLoop [⟨0, 2⟩, ⟨1, -3⟩] (weightGcd [⟨0, 2⟩, ⟨1, -3⟩])
      (maxWeight [⟨0, 2⟩, ⟨1, -3⟩]) 2 0 2 = none ∧
    nextLoop [⟨0, 2⟩, ⟨1, -3⟩] (weightGcd [⟨0, 2⟩, ⟨1, -3⟩])
      (maxWeight [⟨0, 2⟩, ⟨1, -3⟩]) 100 0 2 = none := by decide

/-- C6 (counterexample): the pool `[6, -2, 10]` is entry-for-entry the
common positive multiple (factor 2) of the pool `[3, -1, 5]`, yet from
equal (fresh) starting iteration state the first `next` call selects
index 0 in the first pool and index 2 in the second: the selection
sequences differ.  (The running gcd of `[3, -1, 5]` passes through `-1`,
which re-triggers the `divisor == -1` sentinel of `weightGcd` and resets
the divisor to 5, while the scaled pool computes divisor `-2`.) -/
theorem claim6_counterexample :
    (([⟨0, 3⟩, ⟨1, -1⟩, ⟨2, 5⟩] : List server).map
        (fun s => { s with weight := 2 * s.weight }) = [⟨0, 6⟩, ⟨1, -2⟩, ⟨2, 10⟩]) ∧
    callTrace [⟨0, 6⟩, ⟨1, -2⟩, ⟨2, 10⟩] 1 = some [0] ∧
    callTrace [⟨0, 3⟩, ⟨1, -1⟩, ⟨2, 5⟩] 1 = some [2] := by decide

/-- C8: writing a status equal to the stored one is a no-op — the state
is unchanged and no updater is invoked — and after any normal
`SetStatus _ name up` return, repeating the same call is a no-op, so two
consecutive identical calls trigger at most one propagation. -/
theorem claim8_theorem :
    ∀ (b : WRRLoadBalancer) (name : String) (up : Bool),
      (statusLookup b name = some up → SetStatus b name up = .ok b []) ∧
      (∀ (b' : WRRLoadBalancer) (evs : List Bool),
        SetStatus b name up = .ok b' evs → SetStatus b' name up = .ok b' []) :=
  fun b name up =>
    ⟨setStatus_noop b name up,
     fun b' evs h => setStatus_noop b' name up (statusLookup_after_set b b' name up evs h)⟩

/-- C8 witness: a balancer with a stored entry `("a", true)` and two
updaters; `SetStatus _ "a" true` is a no-op, twice. -/
theorem claim8_witness :
    statusLookup ⟨[], 0, -1, some [("a", true)], [(), ()]⟩ "a" = some true ∧
    SetStatus ⟨[], 0, -1, some [("a", true)], [(), ()]⟩ "a" true
      = .ok ⟨[], 0, -1, some [("a", true)], [(), ()]⟩ [] :=
  ⟨by decide,
   (claim8_theorem ⟨[], 0, -1, some [("a", true)], [(), ()]⟩ "a" true).1 (by decide)⟩

/-- C9: whenever `next` errors, `ServeTCP` logs the error and closes the
connection, forwarding to no backend; whenever `next` succeeds,
`ServeTCP` forwards the connection to exactly the selected entry and
does not close it. -/
theorem claim9_theorem :
    ∀ (fuel : Nat) (b : WRRLoadBalancer),
      (∀ (e : NextError) (b' : WRRLoadBalancer), next fuel b = some (.err e, b') →
        ServeTCP fuel b = some (b', [TCPEvent.logError e, TCPEvent.closeConn]) ∧
        ∀ h : Nat, TCPEvent.forward h ∉ [TCPEvent.logError e, TCPEvent.closeConn]) ∧
      (∀ (srv : server) (b' : WRRLoadBalancer), next fuel b = some (.ok srv, b') →
        ServeTCP fuel b = some (b', [TCPEvent.forward srv.handler]) ∧
        TCPEvent.closeConn ∉ [TCPEvent.forward srv.handler]) := by
  intro fuel b
  constructor
  · intro e b' h
    unfold ServeTCP
    rw [h]
    exact ⟨rfl, by simp⟩
  · intro srv b' h
    unfold ServeTCP
    rw [h]
    exact ⟨rfl, by simp⟩

/-- C9 witness: dispatching on an empty pool closes the connection after
logging `emptyPool`. -/
theorem claim9_witness :
    next 1 NewWRRLoadBalancer = some (.err .emptyPool, NewWRRLoadBalancer) ∧
    ServeTCP 1 NewWRRLoadBalancer
      = some (NewWRRLoadBalancer,
          [TCPEvent.logError NextError.emptyPool, TCPEvent.closeConn]) :=
  ⟨by decide,
   (((claim9_theorem 1 NewWRRLoadBalancer).1 NextError.emptyPool NewWRRLoadBalancer
      (by decide)).1)⟩

/-- C10: `next` changes at most the iteration state (`index` and
`currentWeight`): the server sequence, the status map and the updater
list are unchanged whether it returns an entry or an error, and on an
error return the whole balancer is unchanged. -/
theorem claim10_theorem :
    ∀ (fuel : Nat) (b : WRRLoadBalancer) (r : NextResult) (b' : WRRLoadBalancer),
      next fuel b = some (r, b') →
      b'.servers = b.servers ∧ b'.status = b.status ∧ b'.updaters = b.updaters ∧
      (∀ e : NextError, r = NextResult.err e → b' = b) := by
  intro fuel b r b' h
  unfold next at h
  split at h
  · obtain ⟨hr, hb⟩ := Prod.mk.inj (Option.some.inj h)
    subst hr; subst hb
    exact ⟨rfl, rfl, rfl, fun e _ => rfl⟩
  · split at h
    · obtain ⟨hr, hb⟩ := Prod.mk.inj (Option.some.inj h)
      subst hr; subst hb
      exact ⟨rfl, rfl, rfl, fun e _ => rfl⟩
    · split at h
      · exact absurd h (by simp)
      · obtain ⟨hr, hb⟩ := Prod.mk.inj (Option.some.inj h)
        subst hr; subst hb
        exact ⟨rfl, rfl, rfl, fun e he => absurd he (by simp)⟩

/-- C2 (amended): `next` errors exactly when the pool is empty
(`EmptyPoolError`) or the computed maximum weight — a fold started at
`-1` — equals 0 (`AllZeroWeightError`); no other error originates in the
selection path, at any fuel.  For pools of non-negative weights with a
strictly positive maximum and reachable-shaped iteration state
(`index ≥ -1`, `currentWeight ≤ max`), `next` succeeds within `poolSize`
loop iterations.  (All-negative pools, by contrast, pass the error
checks — their computed max is `-1` — and loop forever, as
`claim2_counterexample` shows.) -/
theorem claim2_theorem :
    ∀ (fuel : Nat) (b : WRRLoadBalancer),
      (resultErr (next fuel b) = some NextError.emptyPool ↔ b.servers = []) ∧
      (resultErr (next fuel b) = some NextError.allZeroWeight ↔
        (b.servers ≠ [] ∧ maxWeight b.servers = 0)) ∧
      ((∀ s ∈ b.servers, 0 ≤ s.weight) → b.servers ≠ [] → 0 < maxWeight b.servers →
        -1 ≤ b.index → b.currentWeight ≤ maxWeight b.servers →
        resultOk (next b.servers.length b) = true) := by
  intro fuel b
  refine ⟨?_, ?_, ?_⟩
  · rw [next_err_char]
    by_cases h0 : b.servers.length = 0
    · rw [if_pos h0]
      simp [List.length_eq_zero.mp h0]
    · rw [if_neg h0]
      have hne : ¬ b.servers = [] := by
        intro h; exact h0 (by rw [h]; rfl)
      by_cases h1 : maxWeight b.servers = 0
      · rw [if_pos h1]
        constructor
        · intro h; exact absurd (Option.some.inj h) (by simp)
        · intro h; exact absurd h hne
      · rw [if_neg h1]
        constructor
        · intro h; cases h
        · intro h; exact absurd h hne
  · rw [next_err_char]
    by_cases h0 : b.servers.length = 0
    · rw [if_pos h0]
      constructor
      · intro h; exact absurd (Option.some.inj h) (by simp)
      · intro h; exact absurd (List.length_eq_zero.mp h0) h.1
    · rw [if_neg h0]
      have hne : ¬ b.servers = [] := by
        intro h; exact h0 (by rw [h]; rfl)
      by_cases h1 : maxWeight b.servers = 0
      · rw [if_pos h1]; simp [hne, h1]
      · rw [if_neg h1]
        constructor
        · intro h; cases h
        · intro h; exact absurd h.2 h1
  · intro hnn hne hM hidx hcw
    have h0 : ¬ b.servers.length = 0 := by
      have := List.length_pos.mpr hne; omega
    have hterm := nextLoop_terminates b.servers hnn hM hne b.index b.currentWeight hidx hcw
    obtain ⟨v, hv⟩ := Option.isSome_iff_exists.mp hterm
    obtain ⟨srv, idx, cw⟩ := v
    unfold next
    rw [if_neg h0, if_neg (by omega), hv]
    rfl

/-- C2 witness: the empty pool errors with `EmptyPoolError`; the pool
`[3,1]` with fresh state succeeds. -/
theorem claim2_witness :
    resultErr (next 1 NewWRRLoadBalancer) = some NextError.emptyPool ∧
    resultOk (next 2 (initB [⟨0, 3⟩, ⟨1, 1⟩])) = true :=
  ⟨((claim2_theorem 1 NewWRRLoadBalancer).1).mpr rfl,
   (claim2_theorem 2 (initB [⟨0, 3⟩, ⟨1, 1⟩])).2.2 (by decide) (by decide) (by decide)
     (by decide) (by decide)⟩

/-- C5 (amended): for every pool state with a non-empty pool,
non-negative weights, strictly positive maximum weight, `index ≥ -1` and
`currentWeight ≤ max` (invariants of every state reachable from a fresh
balancer over such a pool), the selection loop returns within at most
`poolSize` iterations. -/
theorem claim5_theorem :
    ∀ (l : List server) (idx cw : Int),
      l ≠ [] → (∀ s ∈ l, 0 ≤ s.weight) → 0 < maxWeight l → -1 ≤ idx →
      cw ≤ maxWeight l →
      (nextLoop l (weightGcd l) (maxWeight l) l.length idx cw).isSome = true :=
  fun l idx cw hne hnn hM hidx hcw => nextLoop_terminates l hnn hM hne idx cw hidx hcw

/-- C5 witness: the pool `[3,1]` from the fresh state returns within 2
iterations. -/
theorem claim5_witness :
    (nextLoop [⟨0, 3⟩, ⟨1, 1⟩] (weightGcd [⟨0, 3⟩, ⟨1, 1⟩])
      (maxWeight [⟨0, 3⟩, ⟨1, 1⟩]) 2 (-1) 0).isSome = true :=
  claim5_theorem [⟨0, 3⟩, ⟨1, 1⟩] (-1) 0 (by decide) (by decide) (by decide) (by decide)
    (by decide)

/-- C7: a pool containing an entry of weight at least 1 never errors
(only an all-zero pool fails), and from any reachable-shaped state
(`currentWeight ≥ 1`, or the fresh `index = -1`) `next` never returns an
entry of weight 0 — the returned weight is at least the final
`currentWeight`, which stays at least 1. -/
theorem claim7_theorem :
    ∀ (fuel : Nat) (b : WRRLoadBalancer) (s₀ : server),
      s₀ ∈ b.servers → 1 ≤ s₀.weight →
      (1 ≤ b.currentWeight ∨ b.index = -1) →
      resultErr (next fuel b) = none ∧
      (∀ (srv : server) (b' : WRRLoadBalancer), next fuel b = some (.ok srv, b') →
        srv.weight ≠ 0 ∧ 1 ≤ b'.currentWeight) := by
  intro fuel b s₀ hmem hw hgood
  have hM : 0 < maxWeight b.servers := maxWeight_pos b.servers s₀ hmem hw
  have h0 : ¬ b.servers.length = 0 := by
    have := List.length_pos.mpr (List.ne_nil_of_mem hmem); omega
  constructor
  · rw [next_err_char, if_neg h0, if_neg (by omega)]
  · intro srv b' h
    obtain ⟨-, -, -, hl⟩ := next_ok_inv fuel b srv b' h
    have hpos := nextLoop_pos_weight b.servers (weightGcd b.servers) (maxWeight b.servers)
      (by omega) fuel b.index b.currentWeight srv b'.index b'.currentWeight hgood hl
    exact ⟨by omega, hpos.1⟩

/-- C7 witness: in the pool `[{weight 0}, {weight 2}]` the call does not
error and selects the weight-2 entry, never the disabled weight-0
one. -/
theorem claim7_witness :
    resultErr (next 2 (initB [⟨0, 0⟩, ⟨1, 2⟩])) = none ∧
    server.weight ⟨1, 2⟩ ≠ 0 ∧
    1 ≤ WRRLoadBalancer.currentWeight ⟨[⟨0, 0⟩, ⟨1, 2⟩], 2, 1, none, []⟩ :=
  ⟨(claim7_theorem 2 (initB [⟨0, 0⟩, ⟨1, 2⟩]) ⟨1, 2⟩ (by decide) (by decide)
      (Or.inr rfl)).1,
   ((claim7_theorem 2 (initB [⟨0, 0⟩, ⟨1, 2⟩]) ⟨1, 2⟩ (by decide) (by decide)
      (Or.inr rfl)).2 ⟨1, 2⟩ ⟨[⟨0, 0⟩, ⟨1, 2⟩], 2, 1, none, []⟩ (by decide)).1,
   ((claim7_theorem 2 (initB [⟨0, 0⟩, ⟨1, 2⟩]) ⟨1, 2⟩ (by decide) (by decide)
      (Or.inr rfl)).2 ⟨1, 2⟩ ⟨[⟨0, 0⟩, ⟨1, 2⟩], 2, 1, none, []⟩ (by decide)).2⟩

/-- C6 (amended): for pools of non-negative weights, multiplying every
weight by a common positive factor leaves the selection sequence from a
freshly constructed balancer unchanged — so dividing weights by their
GCD, as the spec describes, preserves the interleaving pattern. -/
theorem claim6_theorem :
    ∀ (l : List server) (k : Int) (t : Nat), 1 ≤ k → (∀ s ∈ l, 0 ≤ s.weight) →
      callTrace (l.map (scaleServer k)) t = callTrace l t := by
  intro l k t hk hnn
  have hrc := runCalls_scale l k hk hnn t 0 (-1)
  rw [mul_zero] at hrc
  show (runCalls (l.map (scaleServer k)).length
        ⟨l.map (scaleServer k), 0, -1, none, []⟩ t).map Prod.fst
      = (runCalls l.length ⟨l, 0, -1, none, []⟩ t).map Prod.fst
  rw [hrc]
  cases runCalls l.length ⟨l, 0, -1, none, []⟩ t with
  | none => rfl
  | some p => rfl

/-- C6 witness: the pool `[4,2]` (twice `[2,1]`) selects the same index
sequence over 6 calls as `[2,1]`. -/
theorem claim6_witness :
    callTrace (([⟨0, 2⟩, ⟨1, 1⟩] : List server).map (scaleServer 2)) 6
      = callTrace [⟨0, 2⟩, ⟨1, 1⟩] 6 :=
  claim6_theorem [⟨0, 2⟩, ⟨1, 1⟩] 2 6 (by decide) (by decide)

/-- C10 witness: a successful call on the singleton pool `[{weight: 1}]`
preserves servers, status and updaters. -/
theorem claim10_witness :
    next 1 (initB [⟨0, 1⟩]) = some (.ok ⟨0, 1⟩, ⟨[⟨0, 1⟩], 1, 0, none, []⟩) ∧
    (WRRLoadBalancer.servers ⟨[⟨0, 1⟩], 1, 0, none, []⟩ = (initB [⟨0, 1⟩]).servers ∧
     WRRLoadBalancer.status ⟨[⟨0, 1⟩], 1, 0, none, []⟩ = (initB [⟨0, 1⟩]).status ∧
     WRRLoadBalancer.updaters ⟨[⟨0, 1⟩], 1, 0, none, []⟩ = (initB [⟨0, 1⟩]).updaters) :=
  ⟨by decide,
   ⟨(claim10_theorem 1 (initB [⟨0, 1⟩]) (.ok ⟨0, 1⟩) ⟨[⟨0, 1⟩], 1, 0, none, []⟩
       (by decide)).1,
    (claim10_theorem 1 (initB [⟨0, 1⟩]) (.ok ⟨0, 1⟩) ⟨[⟨0, 1⟩], 1, 0, none, []⟩
       (by decide)).2.1,
    (claim10_theorem 1 (initB [⟨0, 1⟩]) (.ok ⟨0, 1⟩) ⟨[⟨0, 1⟩], 1, 0, none, []⟩
       (by decide)).2.2.1⟩⟩

/-- C4. Weighted fairness: for every pool whose weights are all strictly
positive, with greatest common divisor `g` and weight sum `C * g`, over each
full cycle of `C` successive successful `next()` calls (the calls numbered
`t*C` to `(t+1)*C - 1`, for any `t`), each entry `i` is selected exactly
`weight_i / g` times — stated multiplicatively: the count of entry `i` in the
cycle, times `g`, equals `weight_i`. Selection frequency is therefore exactly
proportional to weight. -/
theorem claim4_theorem (l : List server) (C t i : Nat)
    (hne : l ≠ []) (hw1 : ∀ s ∈ l, 1 ≤ s.weight)
    (hC : (C : Int) * weightGcd l = sumWeights l) (hi : i < l.length) :
    (callTrace l ((t + 1) * C)).map
        (fun tr => (((tr.drop (t * C)).count i : Nat) : Int) * weightGcd l)
      = some ((l.getD i ⟨0, 0⟩).weight) := by
  have hn : 0 < l.length := List.length_pos.mpr hne
  have hg := pool_g_pos l hne hw1
  have hm := pool_m_pos l hne hw1
  have hC1 : 1 ≤ C := by
    have hsw := sumWeights_pos l hne hw1
    rcases Nat.eq_zero_or_pos C with h | h
    · rw [h, Nat.cast_zero, zero_mul] at hC
      omega
    · omega
  have hsfP : ∀ t' : Nat, selCount l 0 (t' * (l.length * mOf l)) = t' * C := by
    intro t'
    induction t' with
    | zero => rw [Nat.zero_mul, Nat.zero_mul]; rfl
    | succ t' iht =>
      rw [Nat.succ_mul, Nat.succ_mul, selCount_add, iht,
        selCount_shift_mul l hne t' 0 (l.length * mOf l),
        selCount_period_total l hne hw1 C hC]
  obtain ⟨L₁, tr₁, hrun₁, hlen₁, hcount₁, hsc₁, hz₁, hp₁⟩ :=
    runCalls_stateAt l hne hw1 (t * C) 0
  have hL₁ : L₁ = t * (l.length * mOf l) := by
    apply selCount_window_unique l 0 (t * C) L₁ (t * (l.length * mOf l))
      hsc₁ ?_ (hsfP t) ?_
    · rcases Nat.eq_zero_or_pos (t * C) with h | h
      · exact Or.inl (hz₁ h)
      · exact Or.inr (hp₁ h).2
    · rcases Nat.eq_zero_or_pos t with h | h
      · left
        rw [h, Nat.zero_mul]
      · right
        rw [Nat.zero_add]
        exact sel_last_of_period l hne hw1 t h
  obtain ⟨L₂, tr₂, hrun₂, hlen₂, hcount₂, hsc₂, hz₂, hp₂⟩ :=
    runCalls_stateAt l hne hw1 C (t * (l.length * mOf l))
  have hscC : selCount l (t * (l.length * mOf l)) (l.length * mOf l) = C := by
    have hsh := selCount_shift_mul l hne t 0 (l.length * mOf l)
    rw [Nat.zero_add] at hsh
    rw [hsh]
    exact selCount_period_total l hne hw1 C hC
  have hlastC : visitSel l
      (t * (l.length * mOf l) + (l.length * mOf l) - 1) = true := by
    rw [show t * (l.length * mOf l) + (l.length * mOf l)
        = (t + 1) * (l.length * mOf l) from (Nat.succ_mul t _).symm]
    exact sel_last_of_period l hne hw1 (t + 1) (by omega)
  have hL₂ : L₂ = l.length * mOf l := by
    apply selCount_window_unique l (t * (l.length * mOf l)) C L₂
      (l.length * mOf l) hsc₂ ?_ hscC ?_
    · exact Or.inr (hp₂ (by omega)).2
    · exact Or.inr hlastC
  have hcombined : runCalls l.length (stateAt l 0) (t * C + C)
      = some (tr₁ ++ tr₂, stateAt l (t * (l.length * mOf l) + L₂)) := by
    rw [runCalls_add l.length (t * C) (stateAt l 0) C, hrun₁,
      show (0 : Nat) + L₁ = t * (l.length * mOf l) from by omega]
    show (match runCalls l.length (stateAt l (t * (l.length * mOf l))) C with
          | some (tr₂, b₂) => some (tr₁ ++ tr₂, b₂)
          | none => none) = _
    rw [hrun₂]
  simp only [callTrace]
  rw [show (t + 1) * C = t * C + C from Nat.succ_mul t C,
    show initB l = stateAt l 0 from rfl, hcombined]
  simp only [Option.map_some']
  congr 1
  rw [← hlen₁, List.drop_left, hcount₂ i, hL₂]
  have hshift := selCountAt_shift_mul l hne i t 0 (l.length * mOf l)
  rw [Nat.zero_add] at hshift
  rw [hshift]
  exact selCountAt_mul_g l hne hw1 i hi

theorem claim4_witness :
    (callTrace [⟨0, 3⟩, ⟨1, 1⟩] 8).map
        (fun tr => (((tr.drop 4).count 0 : Nat) : Int)
          * weightGcd [⟨0, 3⟩, ⟨1, 1⟩])
      = some 3 :=
  claim4_theorem [⟨0, 3⟩, ⟨1, 1⟩] 4 1 0 (by decide) (by decide) (by decide)
    (by decide)

end Tcp
